import Mathlib

/-! The kiteq segmented log store: `store/memory/kite_memory_snapshot.go`

A shallow embedding of `MemorySnapshot` (the snapshot engine of the kiteq
message store) and theorems about it.

Conventions of the embedding.

* Go `int64`/`int32` values are `Int`; every place where the Go code computes
  on them and can overflow goes through `wrap64`/`wrap32`.
* `*Segment` pointers are indices into `MemorySnapshot.segments`: the
  directory only ever grows at the tail and never drops an element, so an
  index names one segment object for the whole run.  `segmentCache`
  (a `container/list` of `*Segment`) is the list of those indices, front first.
* `writeChannel` (a buffered `chan *Chunk` of capacity 10000) is the list of
  buffered chunks, oldest first, with a flag telling whether it was closed.
* A Go runtime panic, a loop that never exits and a blocked channel send are
  the three non-`ok` constructors of `Outcome`.
* The file system is explicit.  `MemorySnapshot.disk` maps the path of every
  file under `filePath` to the records it holds; two segments with the same
  path share one file.  The outcome of every I/O call that the code branches on
  is a `Bool` argument or a field of the entry it concerns.  When a store is
  constructed the disk holds the files under `filePath`, listed in the order
  in which `filepath.Walk` goes through them; `filePath` is taken to end in a
  separator, as `self.filePath + name` in `createSegment` needs for a segment
  file to lie in the base directory.
* `Chunk`, `Segment`, `Segments` and the constants `CHUNK_HEADER`,
  `MAX_SEGMENT_SIZE` are declared in `kite_segment.go`, whose text is missing;
  the constants are fields of `Env` and the `Segment` methods are modelled from
  the specification (each says so).
-/

namespace KiteQ

/-! ## Machine integers and outcomes -/

/-- Two's complement reduction of an integer to the range of a Go `int64`. -/
def wrap64 (x : Int) : Int := (x + 9223372036854775808) % 18446744073709551616 - 9223372036854775808

/-- Two's complement reduction of an integer to the range of a Go `int32`. -/
def wrap32 (x : Int) : Int := (x + 2147483648) % 4294967296 - 2147483648

/-- Result of running a piece of the Go code: it returns, it panics, it loops
forever, or it blocks on a full channel. -/
inductive Outcome (α : Type) where
  | ok (a : α)
  | panic
  | hang
  | blocked
  deriving DecidableEq

/-- Sequencing of outcomes: the continuation runs only after a normal return. -/
def Outcome.bind {α β : Type} (o : Outcome α) (k : α → Outcome β) : Outcome β :=
  match o with
  | .ok a => k a
  | .panic => .panic
  | .hang => .hang
  | .blocked => .blocked

/-! ## Chunks and segments (`kite_segment.go`, not among the sources) -/

/-- Status flag of a chunk. -/
inductive Flag where
  | NORMAL
  | DELETED
  deriving DecidableEq

/-- The record type `Chunk`, with the fields `Append` fills in. -/
structure Chunk where
  length : Int
  id : Int
  checksum : Nat
  data : List UInt8
  flag : Flag
  deriving DecidableEq

/-- The path of a file: the path `createSegment` builds for a start id,
`self.filePath + fmt.Sprintf("%s-%d", SEGMENT_PREFIX, nextStart) +
SEGMENT_DATA_SUFFIX` (lines 353-356), or any other path. -/
inductive Path where
  | segment (sid : Int)
  | other (n : Nat)
  deriving DecidableEq

/-- The files under `filePath`: each path with the records its file holds. -/
abbrev Disk := List (Path × List Chunk)

/-- The records of the file at `p`, if that file exists. -/
def diskRead (disk : Disk) (p : Path) : Option (List Chunk) :=
  match disk with
  | [] => none
  | e :: rest => if e.1 = p then some e.2 else diskRead rest p

/-- The disk after the file at `p` was given the records `recs` (the file is
created when it does not exist). -/
def diskWrite (disk : Disk) (p : Path) (recs : List Chunk) : Disk :=
  match disk with
  | [] => [(p, recs)]
  | e :: rest => if e.1 = p then (p, recs) :: rest else e :: diskWrite rest p recs

/-- The type `Segment`.  `path`, `sid`, `offset`, `byteSize` and `chunks` are the
fields the snapshot code reads and writes.  `isOpen` is the open/closed state
and `openErr` says whether opening the file of this segment fails. -/
structure Segment where
  path : Path
  sid : Int
  offset : Int
  byteSize : Int
  chunks : List Chunk
  isOpen : Bool
  openErr : Bool
  deriving DecidableEq

/-- Total framed length of a batch of chunks. -/
def frameBytes (batch : List Chunk) : Int := (batch.map (fun c => c.length)).sum

/-- Modelled from the spec: `Segment.Open` is missing from the sources.  "acquire/create
the backing file; on an existing file, parse its contents into the in-memory
records sequence. Fails with an I/O error kind on permission/corruption
issues".  `none` is the error return; opening an open segment changes nothing;
otherwise the records of the file at `s.path` are loaded, and the file is
created, empty, when it does not exist. -/
def Segment.Open (s : Segment) (disk : Disk) : Option (Segment × Disk) :=
  if s.openErr then none
  else if s.isOpen then some (s, disk)
  else
    some ({ s with isOpen := true, chunks := (diskRead disk s.path).getD [] },
      if (diskRead disk s.path).isSome then disk else diskWrite disk s.path [])

/-- Modelled from the spec: `Segment.Close` is missing from the sources.  "releases the
file handle; does not discard byte_size bookkeeping"; the records are
"populated only while the segment is open", so closing unloads them. -/
def Segment.Close (s : Segment) : Segment := { s with isOpen := false, chunks := [] }

/-- Modelled from the spec: `Segment.Append` is missing from the sources.  "writes all
records sequentially to the file tail, updates byte_size/offset. Must be
all-or-nothing per call from the caller's perspective".  `writeOk` is the
outcome of the write; the last component is `true` when no error is
returned. -/
def Segment.Append (s : Segment) (disk : Disk) (batch : List Chunk) (writeOk : Bool) :
    Segment × Disk × Bool :=
  if writeOk then
    ({ s with
        chunks := s.chunks ++ batch
        byteSize := s.byteSize + frameBytes batch
        offset := s.offset + frameBytes batch },
      diskWrite disk s.path ((diskRead disk s.path).getD [] ++ batch), true)
  else (s, disk, false)

/-- Modelled from the spec: `Segment.Get` is missing from the sources.  "lookup of a
record by id within this segment's loaded records; returns not found (not an
error) if id is out of the segment's actual range". -/
def Segment.Get (s : Segment) (cid : Int) : Option Chunk :=
  s.chunks.find? (fun c => decide (c.id = cid))

/-- Modelled from the spec: `Segment.LoadChunks` is missing from the sources.  "returns
the full ordered record sequence currently resident in memory". -/
def Segment.LoadChunks (s : Segment) : List Chunk := s.chunks

/-- Modelled from the spec: `Segment.Delete` is missing from the sources.  "locates the
record by id and flips its flag to DELETED in place; does not compact or
rewrite the file. No-op (not an error) if the id is absent". -/
def Segment.Delete (s : Segment) (cid : Int) : Segment :=
  { s with chunks := s.chunks.map (fun c => if c.id = cid then { c with flag := Flag.DELETED } else c) }

/-- Constants and library functions the snapshot code uses but does not define:
the two constants of `kite_segment.go`, `crc32.ChecksumIEEE`, and the capacity
the Go runtime gives a slice that `append` has to reallocate (from the old
capacity and the needed length). -/
structure Env where
  CHUNK_HEADER : Nat
  MAX_SEGMENT_SIZE : Nat
  checksumIEEE : List UInt8 → Nat
  growslice : Nat → Nat → Nat

/-! ## `MemorySnapshot` -/

/-- The struct `MemorySnapshot` (lines 18-30).  `filePath` and `baseDir` stand
for the files under them, which `disk` holds; `waitSync` and the embedded
`RWMutex` carry no data the modelled functions compute on. -/
structure MemorySnapshot where
  segments : List Segment
  chunkId : Int
  writeChannel : List Chunk
  chanClosed : Bool
  running : Bool
  batchSize : Int
  segcacheSize : Int
  segmentCache : List Nat
  disk : Disk
  deriving DecidableEq

/-- Capacity of `writeChannel`: `make(chan *Chunk, 10000)` (line 37). -/
def writeChannelCap : Nat := 10000

/-! ### `sort.Search` -/

/-- The loop of Go's `sort.Search`: `for i < j { h := int(uint(i+j) >> 1);
if !f(h) { i = h + 1 } else { j = h } }; return i`.  The first argument bounds
the number of iterations; `j - i` of them are always enough. -/
def searchLoop (f : Nat → Bool) : Nat → Nat → Nat → Nat
  | 0, i, _ => i
  | fuel + 1, i, j =>
    if i < j then
      let h := (i + j) / 2
      if !f h then searchLoop f fuel (h + 1) j else searchLoop f fuel i h
    else i

/-- Go's `sort.Search(n, f)`. -/
def sortSearch (n : Nat) (f : Nat → Bool) : Nat := searchLoop f n 0 n

/-! ### Lookup: `loadSegment`, `indexSegment`, `Query`, `Head`, `Delete` -/

/-- Method `loadSegment` (lines 199-216).  `self.segments[idx]` panics when `idx` is out
of range.  A failed `Open` is logged and nothing changes.  Otherwise the
eviction loop `for e := Front(); Len() > segcacheSize; { Remove(e) }` runs: `e`
is read once, so `Remove(e)` on an empty list dereferences nil, the first
`Remove(e)` drops the front element, and any further `Remove(e)` is a no-op
(the element no longer belongs to the list), which loops forever when one
removal was not enough.  Then the segment is pushed at the back. -/
def loadSegment (ms : MemorySnapshot) (idx : Int) : Outcome MemorySnapshot :=
  if idx < 0 then .panic
  else
    match ms.segments[idx.toNat]? with
    | none => .panic
    | some s =>
      match s.Open ms.disk with
      | none => .ok ms
      | some so =>
        let segs := ms.segments.set idx.toNat so.1
        if (ms.segmentCache.length : Int) > ms.segcacheSize then
          match ms.segmentCache with
          | [] => .panic
          | _ :: rest =>
            if (rest.length : Int) > ms.segcacheSize then .hang
            else
              .ok { ms with segments := segs, segmentCache := rest ++ [idx.toNat], disk := so.2 }
        else
          .ok { ms with
                segments := segs, segmentCache := ms.segmentCache ++ [idx.toNat], disk := so.2 }

/-- The test of the cache scan of `indexSegment` (line 171):
`s.sid <= cid && cid <= (s.sid+int64(len(s.chunks)))`. -/
def cacheClaims (s : Segment) (cid : Int) : Bool :=
  decide (s.sid ≤ cid) && decide (cid ≤ wrap64 (s.sid + (s.chunks.length : Int)))

/-- The cache scan of `indexSegment` (lines 169-174): the loop has no `break`, so
the last cached segment that passes the test wins. -/
def cacheScan (ms : MemorySnapshot) (cid : Int) : Option Nat :=
  ms.segmentCache.foldl
    (fun curr i =>
      match ms.segments[i]? with
      | some s => if cacheClaims s cid then some i else curr
      | none => curr)
    none

/-- The closure `indexSegment` hands to `sort.Search` (lines 180-183):
`self.segments[i].sid >= cid`; `sort.Search` only calls it inside the slice. -/
def geCid (segs : List Segment) (cid : Int) (i : Nat) : Bool :=
  match segs[i]? with
  | some s => decide (s.sid ≥ cid)
  | none => false

/-- The directory index `indexSegment` computes on a cache miss (lines 180-187):
`sort.Search` for the first segment with `sid >= cid`, stepped back by one when
that index is past the end or its `sid` differs from `cid`. -/
def dirIndex (segs : List Segment) (cid : Int) : Int :=
  let idx := sortSearch segs.length (geCid segs cid)
  match segs[idx]? with
  | none => (idx : Int) - 1
  | some s => if s.sid ≠ cid then (idx : Int) - 1 else (idx : Int)

/-- Method `indexSegment` (lines 165-196): the segment found by the cache scan, or else
`loadSegment(idx)` followed by `self.segments[idx]`. -/
def indexSegment (ms : MemorySnapshot) (cid : Int) : Outcome (MemorySnapshot × Nat) :=
  match cacheScan ms cid with
  | some i => .ok (ms, i)
  | none =>
    let idx := dirIndex ms.segments cid
    (loadSegment ms idx).bind (fun ms1 => .ok (ms1, idx.toNat))

/-- Method `Query` (lines 154-162). -/
def Query (ms : MemorySnapshot) (cid : Int) : Outcome (MemorySnapshot × Option Chunk) :=
  (indexSegment ms cid).bind (fun r =>
    match r.1.segments[r.2]? with
    | some curr => .ok (r.1, curr.Get cid)
    | none => .panic)

/-- Method `Delete` (lines 219-226). -/
def Delete (ms : MemorySnapshot) (cid : Int) : Outcome MemorySnapshot :=
  (indexSegment ms cid).bind (fun r =>
    match r.1.segments[r.2]? with
    | some s => .ok { r.1 with segments := r.1.segments.set r.2 (s.Delete cid) }
    | none => .panic)

/-- Method `Head` (lines 129-151): the first cached segment whose `sid` equals the first
directory segment's `sid` answers; otherwise `loadSegment(0)` and the first
directory segment answers.  `(-1, nil)` on an empty directory. -/
def Head (ms : MemorySnapshot) : Outcome (MemorySnapshot × Int × List Chunk) :=
  match ms.segments with
  | [] => .ok (ms, -1, [])
  | first :: _ =>
    match ms.segmentCache.filterMap (fun i => (ms.segments[i]?).filter (fun s => decide (s.sid = first.sid))) with
    | s :: _ => .ok (ms, first.sid, s.LoadChunks)
    | [] =>
      (loadSegment ms 0).bind (fun ms1 =>
        match ms1.segments with
        | f1 :: _ => .ok (ms1, first.sid, f1.LoadChunks)
        | [] => .panic)

/-! ### Write path: `cid`, `Append`, `createSegment`, `checkRoll` -/

/-- Method `createSegment` (lines 352-369): a descriptor at `nextStart` with the
path built from `nextStart` and zero offset and size, then `Open`, which loads
the file at that path when it already exists; `createOk` is whether this
`Open` succeeds. -/
def createSegment (disk : Disk) (nextStart : Int) (createOk : Bool) : Option (Segment × Disk) :=
  Segment.Open
    { path := Path.segment nextStart, sid := nextStart, offset := 0, byteSize := 0, chunks := [],
      isOpen := false, openErr := !createOk }
    disk

/-- Method `checkRoll` (lines 310-349).  Returns the new state and the segment `s` it
returns in Go (as a directory index). -/
def checkRoll (env : Env) (ms : MemorySnapshot) (createOk : Bool) : Outcome (MemorySnapshot × Nat) :=
  match ms.segments.getLast? with
  | none =>
    match createSegment ms.disk (wrap64 (ms.chunkId + 1)) createOk with
    | some news =>
      .ok ({ ms with segments := ms.segments ++ [news.1], disk := news.2 }, ms.segments.length)
    | none => .panic
  | some s =>
    if s.byteSize > (env.MAX_SEGMENT_SIZE : Int) then
      match createSegment ms.disk (wrap64 (ms.chunkId + 1)) createOk with
      | some news =>
        let segs :=
          if (ms.segments.length : Int) ≥ ms.segcacheSize then
            ms.segments.set (ms.segments.length - 1) s.Close
          else ms.segments
        .ok ({ ms with segments := segs ++ [news.1], disk := news.2 }, ms.segments.length)
      | none => .ok (ms, ms.segments.length - 1)
    else .ok (ms, ms.segments.length - 1)

/-- Method `Append` (lines 229-247).  While running: `cid()` adds one to `chunkId`
(`atomic.AddInt64`, which wraps), the chunk is built and sent on
`writeChannel` (a send on a closed channel panics, a send on a full one
blocks), and the id is returned.  Otherwise `close(self.writeChannel)`, which
panics on an already closed channel, and `-1` is returned. -/
def Append (env : Env) (ms : MemorySnapshot) (msg : List UInt8) : Outcome (MemorySnapshot × Int) :=
  if ms.running then
    let id := wrap64 (ms.chunkId + 1)
    let chunk : Chunk :=
      { length := wrap32 ((env.CHUNK_HEADER : Int) + (msg.length : Int))
        id := id
        checksum := env.checksumIEEE msg
        data := msg
        flag := Flag.NORMAL }
    if ms.chanClosed then .panic
    else if ms.writeChannel.length ≥ writeChannelCap then .blocked
    else .ok ({ ms with chunkId := id, writeChannel := ms.writeChannel ++ [chunk] }, id)
  else
    if ms.chanClosed then .panic
    else .ok ({ ms with chanClosed := true }, -1)

/-! ### The flush goroutine `sync` -/

/-- Where the goroutine running `sync` stands: before its first statement, at the
head of the `for self.running` loop, or returned. -/
inductive Phase where
  | init
  | loop
  | done
  deriving DecidableEq

/-- The local variables of `sync` that live across loop iterations: `batch`, its
capacity `cap(batch)`, and `lastSeg` (as a directory index). -/
structure SyncState where
  batch : List Chunk
  batchCap : Nat
  lastSeg : Nat
  phase : Phase
  deriving DecidableEq

/-- State of the goroutine when `NewMemorySnapshot` spawns it. -/
def SyncState.start : SyncState := { batch := [], batchCap := 0, lastSeg := 0, phase := Phase.init }

/-- Capacity of `append(batch, c)`: unchanged while the element fits; otherwise
the slice is reallocated with the capacity the runtime chooses, which is at
least the needed length. -/
def appendCap (env : Env) (len cap : Nat) : Nat :=
  if len < cap then cap else max (len + 1) (env.growslice cap (len + 1))

/-- The call `lastSeg.Append(batch)` as `sync` calls it: the segment behind the pointer is
updated in place and the returned error is only logged. -/
def flushTo (ms : MemorySnapshot) (lastSeg : Nat) (batch : List Chunk) (appendOk : Bool) :
    Outcome MemorySnapshot :=
  match ms.segments[lastSeg]? with
  | none => .panic
  | some s =>
    .ok { ms with
          segments := ms.segments.set lastSeg (s.Append ms.disk batch appendOk).1
          disk := (s.Append ms.disk batch appendOk).2.1 }

/-- The batch after `if nil != popChunk { batch = append(batch, c) }` (lines 265-268). -/
def popBatch (batch : List Chunk) (popChunk : Option Chunk) : List Chunk :=
  match popChunk with
  | some c => batch ++ [c]
  | none => batch

/-- The capacity `cap(batch)` after that statement. -/
def popCap (env : Env) (batch : List Chunk) (cap : Nat) (popChunk : Option Chunk) : Nat :=
  match popChunk with
  | some _ => appendCap env batch.length cap
  | none => cap

/-- The flush test `nil == popChunk && len(batch) > 0 || len(batch) >= cap(batch)`
(line 271). -/
def forceFlush (popChunk : Option Chunk) (batch : List Chunk) (cap : Nat) : Bool :=
  (popChunk.isNone && decide (batch.length > 0)) || decide (batch.length ≥ cap)

/-- One scheduling of the goroutine running `sync` (lines 249-307), returning the
new state and the batches it handed to `Segment.Append`.

* `init`: `batch := make([]*Chunk, 0, self.batchSize)` (panics on a negative
  capacity) and `lastSeg := self.checkRoll()`.
* `loop`, `running` true: one iteration of the loop: a non-blocking receive, the
  received chunk joins the batch, the batch is flushed when the test
  `forceFlush` holds, then `checkRoll`.
* `loop`, `running` false: the labelled drain loop.  Every buffered chunk joins
  the batch; on an open channel the `default` case then flushes a non-empty
  batch and leaves; on a closed channel the receive case is ready forever (it
  yields nil) and `default` is never taken.
* `done`: the goroutine has returned. -/
def syncStep (env : Env) (ms : MemorySnapshot) (sy : SyncState) (appendOk createOk : Bool) :
    Outcome (MemorySnapshot × SyncState × List (List Chunk)) :=
  match sy.phase with
  | .init =>
    if ms.batchSize < 0 then .panic
    else
      (checkRoll env ms createOk).bind (fun r =>
        .ok (r.1, { batch := [], batchCap := ms.batchSize.toNat, lastSeg := r.2, phase := Phase.loop }, []))
  | .loop =>
    if ms.running then
      let popChunk := ms.writeChannel.head?
      let ms1 := { ms with writeChannel := ms.writeChannel.tail }
      let batch := popBatch sy.batch popChunk
      let cap := popCap env sy.batch sy.batchCap popChunk
      if forceFlush popChunk batch cap then
        (flushTo ms1 sy.lastSeg batch appendOk).bind (fun ms2 =>
          (checkRoll env ms2 createOk).bind (fun r =>
            .ok (r.1, { batch := [], batchCap := cap, lastSeg := r.2, phase := Phase.loop }, [batch])))
      else
        (checkRoll env ms1 createOk).bind (fun r =>
          .ok (r.1, { batch := batch, batchCap := cap, lastSeg := r.2, phase := Phase.loop }, []))
    else
      if ms.chanClosed then .hang
      else
        let batch := sy.batch ++ ms.writeChannel
        let ms1 := { ms with writeChannel := [] }
        if batch.length > 0 then
          (flushTo ms1 sy.lastSeg batch appendOk).bind (fun ms2 =>
            .ok (ms2, { sy with batch := [], phase := Phase.done }, [batch]))
        else .ok (ms1, { sy with batch := batch, phase := Phase.done }, [])
  | .done => .ok (ms, sy, [])

/-! ### Construction and recovery: `NewMemorySnapshot`, `load`, `recoverSnapshot` -/

/-- What the `filepath.Walk` callback of `load` makes of a file name (lines 72-82):
after `TrimSuffix` and `SplitN(name, "-", 2)` there is no second part (the id
stays 0), or `strconv.ParseInt` reads an id, or it fails. -/
inductive SidParse where
  | noDash
  | parsed (id : Int)
  | invalid
  deriving DecidableEq

/-- One entry `filepath.Walk` visits under the base directory, in visiting
order: whether it is a directory, its path, what its name parses to, the
records its file holds and whether opening it fails. -/
structure DirEntry where
  isDir : Bool
  path : Path
  sidParse : SidParse
  stored : List Chunk
  openErr : Bool
  deriving DecidableEq

/-- The segment descriptor `load` builds for a file (lines 85-88): only `path`,
`name` and `sid` are set, everything else is Go's zero value. -/
def descriptor (f : DirEntry) (sid : Int) : Segment :=
  { path := f.path, sid := sid, offset := 0, byteSize := 0, chunks := [], isOpen := false,
    openErr := f.openErr }

/-- The files of the base directory when the store is constructed: every entry
that is not a directory, whether or not the walk of `load` gets to it. -/
def entryFiles : List DirEntry → Disk
  | [] => []
  | f :: rest => if f.isDir then entryFiles rest else (f.path, f.stored) :: entryFiles rest

/-- The start id `load` gives the segment of a file (lines 74-82): the parsed
id, or 0 when the name has no second part. -/
def entrySid (f : DirEntry) : Int :=
  match f.sidParse with
  | .parsed id => id
  | _ => 0

/-- The `filepath.Walk` of `load` (lines 70-95): directories are skipped, a file
whose id does not parse makes the callback return the error, which ends the
walk, and every other file appends a descriptor. -/
def walk : List DirEntry → List Segment
  | [] => []
  | f :: rest =>
    if !f.isDir then
      match f.sidParse with
      | .invalid => []
      | .noDash => descriptor f 0 :: walk rest
      | .parsed id => descriptor f id :: walk rest
    else walk rest

/-- Modelled from the spec: the `sort.Interface` of `Segments` is missing from the sources.
"sort ascending by start_id". -/
def sortSegments (segs : List Segment) : List Segment :=
  segs.insertionSort (fun a b => a.sid ≤ b.sid)

/-- Method `recoverSnapshot` (lines 111-126): open the last segment (a failure panics)
and take the id of its last chunk, if it has one. -/
def recoverSnapshot (ms : MemorySnapshot) : Outcome MemorySnapshot :=
  match ms.segments.getLast? with
  | none => .ok ms
  | some s =>
    match s.Open ms.disk with
    | none => .panic
    | some so =>
      .ok { ms with
            segments := ms.segments.set (ms.segments.length - 1) so.1
            chunkId := match so.1.chunks.getLast? with
              | some c => c.id
              | none => ms.chunkId
            disk := so.2 }

/-- Method `load` (lines 50-109).  `baseDirOk` is whether the base directory can be
created and opened (a failure panics). -/
def load (env : Env) (ms : MemorySnapshot) (baseDirOk : Bool) (entries : List DirEntry)
    (createOk : Bool) : Outcome MemorySnapshot :=
  if !baseDirOk then .panic
  else
    let ms1 := { ms with segments := sortSegments (ms.segments ++ walk entries) }
    (checkRoll env ms1 createOk).bind (fun r => recoverSnapshot r.1)

/-- Constructor `NewMemorySnapshot` (lines 32-48), up to the spawning of `sync`, whose
goroutine starts in `SyncState.start`.  `entries` is what the walk of `load`
finds under `filePath`; their files are the disk. -/
def NewMemorySnapshot (env : Env) (baseDirOk : Bool) (entries : List DirEntry) (createOk : Bool)
    (batchSize segcacheSize : Int) : Outcome MemorySnapshot :=
  load env
    { segments := [], chunkId := -1, writeChannel := [], chanClosed := false, running := true,
      batchSize := batchSize, segcacheSize := segcacheSize, segmentCache := [],
      disk := entryFiles entries }
    baseDirOk entries createOk

/-! ### Runs of the producer and the flusher -/

/-- The engine together with its flush goroutine and a record of what was
observed so far: the values returned by `Append`, the chunks sent on
`writeChannel`, the batches handed to `Segment.Append`, and the batches
`Segment.Append` wrote, each with the directory index of the segment it was
written to; all in order. -/
structure World where
  ms : MemorySnapshot
  sy : SyncState
  returned : List Int
  sent : List Chunk
  flushed : List (List Chunk)
  writes : List (Nat × List Chunk)
  deriving DecidableEq

/-- The world right after `NewMemorySnapshot` returned `ms`. -/
def World.start (ms : MemorySnapshot) : World :=
  { ms := ms, sy := SyncState.start, returned := [], sent := [], flushed := [], writes := [] }

/-- The entries one scheduling of the flush goroutine adds to the record of
writes: the batches it handed to `lastSeg.Append`, when the write succeeds. -/
def loggedWrites (appendOk : Bool) (lastSeg : Nat) (batches : List (List Chunk)) :
    List (Nat × List Chunk) :=
  if appendOk then batches.map (fun batch => (lastSeg, batch)) else []

/-- The batches written to the segment at directory index `i`, in order. -/
def writesTo (i : Nat) (writes : List (Nat × List Chunk)) : List (List Chunk) :=
  (writes.filter (fun p => decide (p.1 = i))).map (fun p => p.2)

/-- An atomic action: a call of `Append`, one scheduling of the flush goroutine
(with the outcome of the segment write and of the segment creation it may
perform), or the assignment `self.running = false` of `Destory`. -/
inductive Step where
  | append (msg : List UInt8)
  | sync (appendOk createOk : Bool)
  | stop
  deriving DecidableEq

/-- Effect of one action. -/
def step (env : Env) (w : World) : Step → Outcome World
  | .append msg =>
    (Append env w.ms msg).bind (fun r =>
      .ok { w with
            ms := r.1
            returned := w.returned ++ [r.2]
            sent := w.sent ++ (r.1.writeChannel.drop w.ms.writeChannel.length) })
  | .sync appendOk createOk =>
    (syncStep env w.ms w.sy appendOk createOk).bind (fun r =>
      .ok { w with
            ms := r.1
            sy := r.2.1
            flushed := w.flushed ++ r.2.2
            writes := w.writes ++ loggedWrites appendOk w.sy.lastSeg r.2.2 })
  | .stop => .ok { w with ms := { w.ms with running := false } }

/-- Effect of a sequence of actions, first to last. -/
def run (env : Env) (w : World) : List Step → Outcome World
  | [] => .ok w
  | s :: rest => (step env w s).bind (fun w1 => run env w1 rest)

/-- Method `Destory` (lines 386-400): `running` is set to false, `waitSync.Wait()` lets
the flush goroutine run until it has returned, then every segment is closed.
`appendOk` and `createOk` are the outcomes of the I/O the goroutine still
performs. -/
def Destory (env : Env) (w : World) (appendOk createOk : Bool) : Outcome World :=
  let w0 := { w with ms := { w.ms with running := false } }
  let finish : Outcome World :=
    match w0.sy.phase with
    | .init => run env w0 [Step.sync appendOk createOk, Step.sync appendOk createOk]
    | .loop => run env w0 [Step.sync appendOk createOk]
    | .done => .ok w0
  finish.bind (fun w1 =>
    .ok { w1 with ms := { w1.ms with segments := w1.ms.segments.map Segment.Close } })

/-- Whether an action is a call of `Append`. -/
def Step.isAppend : Step → Bool
  | .append _ => true
  | _ => false

/-! ## Invariants of runs -/

/-- Nothing is lost, duplicated or reordered between the channel and the
segment writes: the flushed batches, then the current batch, then the buffered
chunks are exactly the chunks sent so far; the batch is empty before the
goroutine starts; once the goroutine has returned the engine is stopped and
batch and channel are empty. -/
def QueueInv (w : World) : Prop :=
  w.flushed.flatten ++ w.sy.batch ++ w.ms.writeChannel = w.sent ∧
    (w.sy.phase = Phase.init → w.sy.batch = []) ∧
    (w.sy.phase = Phase.done → w.ms.running = false ∧ w.sy.batch = [] ∧ w.ms.writeChannel = [])

/-- The directory is not empty, `lastSeg` points into it once the goroutine has
started, and `batchSize` keeps its value `b`. -/
def DirInv (b : Int) (w : World) : Prop :=
  w.ms.segments ≠ [] ∧ (w.sy.phase ≠ Phase.init → w.sy.lastSeg < w.ms.segments.length) ∧
    w.ms.batchSize = b

/-- While the engine runs on an open channel, and as long as the ids handed out
after the initial cursor `c0` stay below `2^63`: the cursor is `c0` plus the
number of ids handed out, these ids are `c0 + 1, c0 + 2, ...` in call order,
and the chunks were sent in that order. -/
def IdInv (c0 : Int) (w : World) : Prop :=
  w.ms.running = true ∧ w.ms.chanClosed = false ∧
    (c0 + (w.returned.length : Int) < 9223372036854775808 →
      w.ms.chunkId = c0 + (w.returned.length : Int) ∧
        w.returned = (List.range w.returned.length).map (fun (i : Nat) => c0 + 1 + (i : Int)) ∧
        w.sent.map (fun ch => ch.id) = w.returned)

/-- Whether an action is a scheduling of the flush goroutine in which no segment
can be created: a `createSegment` of its `checkRoll` fails. -/
def Step.createFails : Step → Bool
  | .sync _ false => true
  | _ => false

/-- The overshoot allowed to a segment after `k` failed segment creations, given
the batches `log` written to it: its size is at most the limit plus the framed
length of the last batches written to it, at most `k` of them, each of at most
`b` chunks. -/
def OvershootBound (env : Env) (b : Int) (log : List (List Chunk)) (k : Nat)
    (s : Segment) : Prop :=
  ∃ bs : List (List Chunk), bs <:+ log ∧ (∀ batch ∈ bs, (batch.length : Int) ≤ b) ∧
    bs.length ≤ k ∧ s.byteSize ≤ (env.MAX_SEGMENT_SIZE : Int) + frameBytes bs.flatten

/-- Invariant of the roll policy for the segments from directory index `n0` on,
after `k` failed segment creations: `batchSize` is `b`; every such segment that
is no longer the last one is within `OvershootBound` for `k + 1` batches; while
the goroutine is in its loop, `lastSeg` is the last directory segment, that
segment is within `OvershootBound` for `k` batches, and the batch is shorter
than its capacity `b`; before the goroutine starts, every such segment is
within the size limit. -/
def RollInv (env : Env) (b : Int) (n0 : Nat) (k : Nat) (w : World) : Prop :=
  w.ms.batchSize = b ∧
    (∀ i s, n0 ≤ i → i + 1 < w.ms.segments.length → w.ms.segments[i]? = some s →
      OvershootBound env b (writesTo i w.writes) (k + 1) s) ∧
    (w.sy.phase = Phase.loop →
      w.sy.lastSeg + 1 = w.ms.segments.length ∧
        (∀ s, w.ms.segments.getLast? = some s → n0 + 1 ≤ w.ms.segments.length →
          OvershootBound env b (writesTo w.sy.lastSeg w.writes) k s) ∧
        w.sy.batch.length < w.sy.batchCap ∧ (w.sy.batchCap : Int) = b) ∧
    (w.sy.phase = Phase.init →
      ∀ i s, n0 ≤ i → w.ms.segments[i]? = some s → s.byteSize ≤ (env.MAX_SEGMENT_SIZE : Int))

/-! ## Concrete stores used by the examples -/

/-- Constants for the examples: a 17 byte header and a 20 byte segment limit. -/
def demoEnv : Env :=
  { CHUNK_HEADER := 17, MAX_SEGMENT_SIZE := 20, checksumIEEE := fun _ => 0,
    growslice := fun _ need => need }

/-- Constants for the examples with a segment limit no example reaches. -/
def roomyEnv : Env :=
  { CHUNK_HEADER := 17, MAX_SEGMENT_SIZE := 1000, checksumIEEE := fun _ => 0,
    growslice := fun _ need => need }

/-- A stored record with a one byte payload. -/
def demoChunk (id : Int) (b : UInt8) : Chunk :=
  { length := 18, id := id, checksum := 0, data := [b], flag := Flag.NORMAL }

/-- A base directory holding two segment files: one starting at 0 with records
0 and 1, one starting at 2 with record 2. -/
def demoFiles : List DirEntry :=
  [ { isDir := true, path := Path.other 0, sidParse := SidParse.noDash, stored := [],
      openErr := false },
    { isDir := false, path := Path.segment 0, sidParse := SidParse.parsed 0,
      stored := [demoChunk 0 97, demoChunk 1 98], openErr := false },
    { isDir := false, path := Path.segment 2, sidParse := SidParse.parsed 2,
      stored := [demoChunk 2 99], openErr := false } ]

/-- The segment file starting at 9, holding record 9. -/
def demoNinth : DirEntry :=
  { isDir := false, path := Path.segment 9, sidParse := SidParse.parsed 9,
    stored := [demoChunk 9 99], openErr := false }

/-- A base directory in which the walk visits the segment file starting at 1
(record 1), then a file whose name holds no id, then the segment file starting
at 9 (record 9). -/
def brokenDir : List DirEntry :=
  [ { isDir := false, path := Path.segment 1, sidParse := SidParse.parsed 1,
      stored := [demoChunk 1 97], openErr := false },
    { isDir := false, path := Path.other 1, sidParse := SidParse.invalid, stored := [],
      openErr := false },
    demoNinth ]

/-- The value of an outcome that returned, `d` otherwise. -/
def Outcome.getD {α : Type} (o : Outcome α) (d : α) : α :=
  match o with
  | .ok a => a
  | _ => d

/-- A store that holds nothing, the fallback of the examples. -/
def emptyStore : MemorySnapshot :=
  { segments := [], chunkId := -1, writeChannel := [], chanClosed := false, running := true,
    batchSize := 2, segcacheSize := 1, segmentCache := [], disk := [] }

/-- The store `NewMemorySnapshot` builds over an empty base directory, with
batch size 2 and cache size 1. -/
def demoFresh : MemorySnapshot := (NewMemorySnapshot demoEnv true [] true 2 1).getD emptyStore

/-- The store `NewMemorySnapshot` recovers over `demoFiles`, with batch size 2 and
cache size 1. -/
def demoStore : MemorySnapshot :=
  (NewMemorySnapshot demoEnv true demoFiles true 2 1).getD emptyStore

/-- Three calls of `Append` with the flush goroutine scheduled in between. -/
def demoSteps : List Step :=
  [Step.append [97], Step.sync true true, Step.sync true true, Step.append [98],
   Step.append [99], Step.sync true true]

/-- The world after `demoSteps` on `demoFresh`. -/
def demoWorld : World := (run demoEnv (World.start demoFresh) demoSteps).getD (World.start demoFresh)

/-- A run on a fresh store with batch size 2 in which one chunk is flushed alone
and the next two are flushed as one batch. -/
def rollSteps : List Step :=
  [Step.append [97], Step.sync true true, Step.sync true true, Step.sync true true,
   Step.append [98], Step.append [99], Step.sync true true, Step.sync true true]

/-- The world after `rollSteps` on `demoFresh`. -/
def rollWorld : World := (run demoEnv (World.start demoFresh) rollSteps).getD (World.start demoFresh)

/-- A run with batch size 1 in which the segment creation of one roll fails:
the second flush takes segment 0 over the limit, no segment can be created, and
the third flush goes into segment 0 as well. -/
def failedRollSteps : List Step :=
  [Step.append [97], Step.sync true true, Step.sync true true, Step.append [98],
   Step.sync true false, Step.append [99], Step.sync true true]

/-- Modelled from the spec: the naming of segment files is missing from the sources.  "one
file per segment in the base directory, named
`<fixed-prefix>-<start_id><fixed-suffix>`", and load can "parse each filename
to recover its `start_id`": the entries a later walk finds for the segment
files a store has created. -/
def reopenEntries : Disk → List DirEntry
  | [] => []
  | e :: rest =>
    match e.1 with
    | .segment k =>
      { isDir := false, path := e.1, sidParse := SidParse.parsed k, stored := e.2,
        openErr := false } :: reopenEntries rest
    | .other _ => reopenEntries rest

/-- The base directory after a fresh store with a roomy segment limit took three
calls of `Append`, flushed and was destroyed. -/
def roundTripDir : List DirEntry :=
  reopenEntries
    ((((NewMemorySnapshot roomyEnv true [] true 2 1).bind (fun ms =>
        run roomyEnv (World.start ms) demoSteps)).bind (fun w =>
        Destory roomyEnv w true true)).getD (World.start emptyStore)).ms.disk

/-- The segment file starting at 0, holding records 0, 1 and 2. -/
def roundTripEntry : DirEntry :=
  { isDir := false, path := Path.segment 0, sidParse := SidParse.parsed 0,
    stored := [demoChunk 0 97, demoChunk 1 98, demoChunk 2 99], openErr := false }

/-- Every chunk a segment holds has its id inside the segment's own range. -/
def holdsOwnRange (s : Segment) : Prop :=
  ∀ c ∈ s.chunks, s.sid ≤ c.id ∧ c.id < s.sid + (s.chunks.length : Int)

instance (s : Segment) : Decidable (holdsOwnRange s) := by
  unfold holdsOwnRange
  infer_instance

/-! ## Lemmas: `sort.Search` -/

/-- The loop of `sort.Search` keeps its invariant: on a predicate that is
monotone below `n`, started with every index below `i` false and every index
from `j` on true, it returns the boundary between the false and true
indices. -/
theorem searchLoop_spec (f : Nat → Bool) (n : Nat)
    (hmono : ∀ a b, a ≤ b → b < n → f a = true → f b = true) :
    ∀ (fuel i j : Nat), i ≤ j → j ≤ n → j - i ≤ fuel →
      (∀ k, k < i → f k = false) → (∀ k, j ≤ k → k < n → f k = true) →
      searchLoop f fuel i j ≤ n ∧ (∀ k, k < searchLoop f fuel i j → f k = false) ∧
        (∀ k, searchLoop f fuel i j ≤ k → k < n → f k = true) := by
  intro fuel
  induction fuel with
  | zero =>
    intro i j hij hjn hfuel hlo hhi
    have hji : j = i := by omega
    subst hji
    simp only [searchLoop]
    exact ⟨hjn, hlo, hhi⟩
  | succ fuel ih =>
    intro i j hij hjn hfuel hlo hhi
    simp only [searchLoop]
    by_cases hlt : i < j
    · simp only [hlt, if_true]
      have hh1 : i ≤ (i + j) / 2 := by omega
      have hh2 : (i + j) / 2 < j := by omega
      cases hfh : f ((i + j) / 2) with
      | false =>
        simp only [Bool.not_false, if_true]
        apply ih ((i + j) / 2 + 1) j (by omega) hjn (by omega) _ hhi
        intro k hk
        cases hfk : f k with
        | false => rfl
        | true =>
          have := hmono k ((i + j) / 2) (by omega) (by omega) hfk
          rw [hfh] at this
          exact absurd this (by simp)
      | true =>
        simp only [Bool.not_true, Bool.false_eq_true, if_false]
        apply ih i ((i + j) / 2) hh1 (by omega) (by omega) hlo
        intro k hk hkn
        exact hmono ((i + j) / 2) k hk hkn hfh
    · simp only [hlt, if_false]
      have hji : j = i := by omega
      subst hji
      exact ⟨hjn, hlo, hhi⟩

/-- In a directory strictly ascending by `sid`, a later segment has a greater `sid`. -/
theorem sid_lt_of_index_lt {segs : List Segment}
    (hasc : segs.Pairwise (fun a b => a.sid < b.sid)) {i j : Nat} {a b : Segment}
    (hi : segs[i]? = some a) (hj : segs[j]? = some b) (hij : i < j) : a.sid < b.sid := by
  rw [List.getElem?_eq_some] at hi hj
  obtain ⟨hi1, rfl⟩ := hi
  obtain ⟨hj1, rfl⟩ := hj
  exact (List.pairwise_iff_getElem.mp hasc) i j hi1 hj1 hij

theorem geCid_mono {segs : List Segment} (hasc : segs.Pairwise (fun a b => a.sid < b.sid))
    (cid : Int) : ∀ a b, a ≤ b → b < segs.length → geCid segs cid a = true → geCid segs cid b = true := by
  intro a b hab hb ha
  unfold geCid at ha ⊢
  have hbs : segs[b]? = some segs[b] := List.getElem?_eq_getElem hb
  have has : segs[a]? = some segs[a] := List.getElem?_eq_getElem (by omega)
  rw [hbs]
  rw [has] at ha
  simp only [decide_eq_true_eq, ge_iff_le] at ha ⊢
  rcases Nat.eq_or_lt_of_le hab with h | h
  · subst h; exact ha
  · have := sid_lt_of_index_lt hasc has hbs h
    omega

/-- What `sort.Search` returns inside `indexSegment`: every segment before the
returned index has `sid < cid`, every segment from it on has `sid >= cid`. -/
theorem sortSearch_dir {segs : List Segment} (hasc : segs.Pairwise (fun a b => a.sid < b.sid))
    (cid : Int) :
    sortSearch segs.length (geCid segs cid) ≤ segs.length ∧
      (∀ k s, k < sortSearch segs.length (geCid segs cid) → segs[k]? = some s → s.sid < cid) ∧
      (∀ k s, sortSearch segs.length (geCid segs cid) ≤ k → segs[k]? = some s → cid ≤ s.sid) := by
  have h := searchLoop_spec (geCid segs cid) segs.length (geCid_mono hasc cid) segs.length 0
    segs.length (Nat.zero_le _) (Nat.le_refl _) (by omega) (by intro k hk; omega)
    (by intro k hk hkn; omega)
  refine ⟨h.1, ?_, ?_⟩
  · intro k s hk hs
    have := h.2.1 k hk
    unfold geCid at this
    rw [hs] at this
    simpa using this
  · intro k s hk hs
    have hkn : k < segs.length := by
      rw [List.getElem?_eq_some] at hs
      exact hs.1
    have := h.2.2 k hk hkn
    unfold geCid at this
    rw [hs] at this
    simpa using this

theorem dirIndex_eq (segs : List Segment) (cid : Int) :
    dirIndex segs cid =
      match segs[sortSearch segs.length (geCid segs cid)]? with
      | none => (sortSearch segs.length (geCid segs cid) : Int) - 1
      | some s => if s.sid ≠ cid then (sortSearch segs.length (geCid segs cid) : Int) - 1
          else (sortSearch segs.length (geCid segs cid) : Int) := rfl

/-- The index `indexSegment` computes on a cache miss is the floor index: in a
non-empty directory strictly ascending by `sid`, for `cid` not below the first
`sid`, it is in range, its `sid` is at most `cid`, and every later `sid` is
greater than `cid`. -/
theorem dirIndex_floor {segs : List Segment} (hasc : segs.Pairwise (fun a b => a.sid < b.sid))
    (cid : Int) (hfirst : ∀ s, segs.head? = some s → s.sid ≤ cid) (hne : segs ≠ []) :
    ∃ idx : Nat, dirIndex segs cid = (idx : Int) ∧
      (∃ s, segs[idx]? = some s ∧ s.sid ≤ cid) ∧
      (∀ j s, idx < j → segs[j]? = some s → cid < s.sid) := by
  obtain ⟨hle, hlo, hhi⟩ := sortSearch_dir hasc cid
  rw [dirIndex_eq]
  generalize sortSearch segs.length (geCid segs cid) = r at hle hlo hhi
  have hlen : 0 < segs.length := List.length_pos.mpr hne
  cases hr : segs[r]? with
  | none =>
    have hrn : r = segs.length := by
      rw [List.getElem?_eq_none_iff] at hr
      omega
    refine ⟨r - 1, by show (r : Int) - 1 = ((r - 1 : Nat) : Int); omega, ?_, ?_⟩
    · have hs : segs[r - 1]? = some segs[r - 1] := List.getElem?_eq_getElem (by omega)
      exact ⟨_, hs, le_of_lt (hlo (r - 1) _ (by omega) hs)⟩
    · intro j s hj hs
      rw [List.getElem?_eq_some] at hs
      obtain ⟨h1, _⟩ := hs
      omega
  | some s =>
    by_cases hsc : s.sid = cid
    · refine ⟨r, by simp [hsc], ⟨s, hr, le_of_eq hsc⟩, ?_⟩
      intro j t hj ht
      have := sid_lt_of_index_lt hasc hr ht hj
      omega
    · have hge : cid ≤ s.sid := hhi r s (Nat.le_refl _) hr
      have hr0 : r ≠ 0 := by
        intro h0
        subst h0
        have := hfirst s (by rw [List.head?_eq_getElem?]; exact hr)
        omega
      have hrn : r < segs.length := by
        rw [List.getElem?_eq_some] at hr
        exact hr.1
      refine ⟨r - 1, by simp only [ne_eq, hsc, not_false_eq_true, if_true]; show (r : Int) - 1 = ((r - 1 : Nat) : Int); omega, ?_, ?_⟩
      · have hs : segs[r - 1]? = some segs[r - 1] := List.getElem?_eq_getElem (by omega)
        exact ⟨_, hs, le_of_lt (hlo (r - 1) _ (by omega) hs)⟩
      · intro j t hj ht
        rcases Nat.eq_or_lt_of_le (show r ≤ j by omega) with h | h
        · subst h
          rw [hr] at ht
          cases ht
          omega
        · have := sid_lt_of_index_lt hasc hr ht h
          omega

/-! ## Lookup -/

/-- C9.  Floor search on a cache miss.  In a non-empty directory strictly
ascending by `sid`, for an id not below the first `sid` that no cached segment
claims, the index `indexSegment` computes (`sort.Search` for the first
`sid >= cid`, stepped back unless that `sid` equals `cid`) is a directory index
`idx` whose `sid` is at most `cid` while every later `sid` is greater, and it
is the only such index.  `indexSegment` then does exactly `loadSegment(idx)` and
returns `segments[idx]`; when that segment opens and the cache is within one
entry of its capacity, the call returns with that segment at the back of the
cache. -/
theorem indexSegment_miss_is_floor (ms : MemorySnapshot) (cid : Int)
    (hne : ms.segments ≠ [])
    (hasc : ms.segments.Pairwise (fun a b => a.sid < b.sid))
    (hfirst : ∀ s, ms.segments.head? = some s → s.sid ≤ cid)
    (hmiss : cacheScan ms cid = none) :
    ∃ idx : Nat, dirIndex ms.segments cid = (idx : Int) ∧
      (∃ s, ms.segments[idx]? = some s ∧ s.sid ≤ cid) ∧
      (∀ j s, idx < j → ms.segments[j]? = some s → cid < s.sid) ∧
      (∀ k s, ms.segments[k]? = some s → s.sid ≤ cid →
        (∀ j t, k < j → ms.segments[j]? = some t → cid < t.sid) → k = idx) ∧
      indexSegment ms cid = (loadSegment ms idx).bind (fun ms1 => .ok (ms1, idx)) ∧
      (∀ s, ms.segments[idx]? = some s → s.openErr = false → 0 ≤ ms.segcacheSize →
        (ms.segmentCache.length : Int) ≤ ms.segcacheSize + 1 →
        ∃ ms1, indexSegment ms cid = .ok (ms1, idx) ∧ ms1.segmentCache.getLast? = some idx) := by
  obtain ⟨idx, hidx, ⟨s0, hs0, hle0⟩, hlater⟩ := dirIndex_floor hasc cid hfirst hne
  have hidxseg : indexSegment ms cid = (loadSegment ms idx).bind (fun ms1 => .ok (ms1, idx)) := by
    unfold indexSegment
    rw [hmiss]
    simp only [hidx, Int.toNat_ofNat]
  refine ⟨idx, hidx, ⟨s0, hs0, hle0⟩, hlater, ?_, hidxseg, ?_⟩
  · intro k s hk hsk hkl
    rcases Nat.lt_trichotomy k idx with h | h | h
    · have := hkl idx s0 h hs0
      omega
    · exact h
    · have := hlater k s h hk
      omega
  · intro s hs hopen hsz hlen
    rw [hidxseg]
    have hnn : ¬ ((idx : Int) < 0) := by omega
    unfold loadSegment
    simp only [hnn, if_false, Int.toNat_ofNat, hs, Segment.Open, hopen, Bool.false_eq_true]
    by_cases hfull : (ms.segmentCache.length : Int) > ms.segcacheSize
    · simp only [hfull, if_true]
      cases hc : ms.segmentCache with
      | nil =>
        rw [hc] at hfull
        simp only [List.length_nil, Nat.cast_zero] at hfull
        omega
      | cons e rest =>
        rw [hc] at hlen
        simp only [List.length_cons, Nat.cast_add, Nat.cast_one] at hlen
        have hr : ¬ ((rest.length : Int) > ms.segcacheSize) := by omega
        by_cases ho : s.isOpen = true <;>
          simp [ho, hr, Outcome.bind]
    · by_cases ho : s.isOpen = true <;>
        simp [ho, hfull, Outcome.bind]

/-- Example for C9: on the recovered two-segment store, whose cache is empty,
id 3 resolves to directory index 1, which is loaded into the cache. -/
theorem indexSegment_miss_is_floor_witness :
    ∃ ms1, indexSegment demoStore 3 = .ok (ms1, 1) ∧ ms1.segmentCache.getLast? = some 1 := by
  obtain ⟨idx, h1, ⟨s, hs, _⟩, _, _, _, hload⟩ := indexSegment_miss_is_floor demoStore 3
    (by decide) (by decide)
    (by
      intro s hs
      have hall : ∀ t ∈ demoStore.segments, t.sid ≤ 3 := by decide
      exact hall s (List.mem_of_mem_head? hs))
    (by decide)
  have hidx : idx = 1 := by
    have h2 : dirIndex demoStore.segments 3 = 1 := by decide
    rw [h2] at h1
    omega
  subst hidx
  have hopen : ∀ t ∈ demoStore.segments, t.openErr = false := by decide
  exact hload s hs (hopen s (List.getElem?_mem hs)) (by decide) (by decide)

/-- C2.  `Query(-1)` and `Delete(-1)` on a freshly created store (one segment,
starting at 0, empty cache) panic: `sort.Search` returns 0, the `sid` found
there is not -1, `idx` becomes -1 and `loadSegment` indexes `segments[-1]`. -/
theorem query_below_first_sid_panics (env : Env) (batchSize segcacheSize : Int) :
    (NewMemorySnapshot env true [] true batchSize segcacheSize).bind (fun ms => Query ms (-1))
        = Outcome.panic ∧
      (NewMemorySnapshot env true [] true batchSize segcacheSize).bind (fun ms => Delete ms (-1))
        = Outcome.panic := by
  constructor <;>
    simp [NewMemorySnapshot, load, walk, sortSegments, checkRoll, createSegment, Segment.Open,
      recoverSnapshot, Outcome.bind, Query, Delete, indexSegment, cacheScan, dirIndex, geCid,
      sortSearch, searchLoop, loadSegment, wrap64, entryFiles, diskRead, diskWrite]

/-- C3.  With segments starting at 0 (records 0 and 1) and at 2 (record 2):
on the recovered store `Query(2)` resolves to directory index 1 and returns
record 2; once `Head()` has put segment 0 in the cache, the cache scan accepts
`cid = sid + len(chunks)` for it, `indexSegment(2)` returns directory index 0
and `Query(2)` returns nothing. -/
theorem cached_segment_claims_next_id :
    (NewMemorySnapshot demoEnv true demoFiles true 2 1).bind
        (fun ms => .ok (ms.segments.map (fun s => s.sid), ms.segmentCache)) = .ok ([0, 2], []) ∧
      (NewMemorySnapshot demoEnv true demoFiles true 2 1).bind
        (fun ms => (indexSegment ms 2).bind (fun r => .ok r.2)) = .ok 1 ∧
      (NewMemorySnapshot demoEnv true demoFiles true 2 1).bind
        (fun ms => (Query ms 2).bind (fun r => .ok r.2)) = .ok (some (demoChunk 2 99)) ∧
      (NewMemorySnapshot demoEnv true demoFiles true 2 1).bind
        (fun ms => (Head ms).bind (fun h => .ok (h.2, h.1.segmentCache)))
          = .ok ((0, [demoChunk 0 97, demoChunk 1 98]), [0]) ∧
      (NewMemorySnapshot demoEnv true demoFiles true 2 1).bind
        (fun ms => (Head ms).bind (fun h => (indexSegment h.1 2).bind (fun r => .ok r.2))) = .ok 0 ∧
      (NewMemorySnapshot demoEnv true demoFiles true 2 1).bind
        (fun ms => (Head ms).bind (fun h => (Query h.1 2).bind (fun r => .ok r.2))) = .ok none := by
  decide

/-- C4.  With `segcacheSize = 1`, `Head()` followed by `Query(3)` leaves two
segments in `segmentCache`: the eviction loop only removes while
`Len() > segcacheSize`, so a cache holding exactly `segcacheSize` segments
still admits another. -/
theorem cache_holds_one_more_than_capacity :
    (NewMemorySnapshot demoEnv true demoFiles true 2 1).bind
        (fun ms => .ok (ms.segcacheSize, ms.segmentCache)) = .ok (1, []) ∧
      (NewMemorySnapshot demoEnv true demoFiles true 2 1).bind
        (fun ms => (Head ms).bind (fun h => (Query h.1 3).bind (fun r => .ok r.1.segmentCache)))
          = .ok [0, 1] := by
  decide

/-! ## Lemmas: what the write path leaves unchanged -/

theorem Outcome.bind_eq_ok {α β : Type} {o : Outcome α} {k : α → Outcome β} {b : β}
    (h : o.bind k = .ok b) : ∃ a, o = .ok a ∧ k a = .ok b := by
  cases o with
  | ok a => exact ⟨a, rfl, h⟩
  | panic => simp [Outcome.bind] at h
  | hang => simp [Outcome.bind] at h
  | blocked => simp [Outcome.bind] at h

theorem createSegment_eq (disk : Disk) (nextStart : Int) (createOk : Bool) :
    createSegment disk nextStart createOk =
      if createOk then
        some ({ path := Path.segment nextStart, sid := nextStart, offset := 0, byteSize := 0,
                chunks := (diskRead disk (Path.segment nextStart)).getD [], isOpen := true,
                openErr := false },
          if (diskRead disk (Path.segment nextStart)).isSome then disk
          else diskWrite disk (Path.segment nextStart) [])
      else none := by
  cases createOk <;> simp [createSegment, Segment.Open]

/-- What `checkRoll` does when it returns: only the directory and the disk change;
the returned segment is the last one; either nothing was added (and the last
segment is within the size limit, if segment creation would have succeeded),
or an empty segment starting at `chunkId + 1` was added behind a directory that
was empty or whose last segment was over the limit, and that one was at most
closed. -/
theorem checkRoll_spec {env : Env} {ms : MemorySnapshot} {createOk : Bool}
    {r : MemorySnapshot × Nat} (h : checkRoll env ms createOk = .ok r) :
    r.1 = { ms with segments := r.1.segments, disk := r.1.disk } ∧
      r.2 + 1 = r.1.segments.length ∧
      ((r.1.segments = ms.segments ∧ ms.segments ≠ [] ∧
          (createOk = true → ∀ s, ms.segments.getLast? = some s →
            s.byteSize ≤ (env.MAX_SEGMENT_SIZE : Int))) ∨
        (createOk = true ∧
          ∃ old news, r.1.segments = old ++ [news] ∧ news.byteSize = 0 ∧ news.isOpen = true ∧
            news.sid = wrap64 (ms.chunkId + 1) ∧
            ((old = ms.segments ∧ (ms.segments = [] ∨ ∃ s, ms.segments.getLast? = some s ∧
                  s.byteSize > (env.MAX_SEGMENT_SIZE : Int))) ∨
              ∃ s, ms.segments.getLast? = some s ∧ s.byteSize > (env.MAX_SEGMENT_SIZE : Int) ∧
                old = ms.segments.set (ms.segments.length - 1) s.Close))) := by
  unfold checkRoll at h
  rw [createSegment_eq] at h
  cases hl : ms.segments.getLast? with
  | none =>
    rw [hl] at h
    have hnil : ms.segments = [] := List.getLast?_eq_none_iff.mp hl
    cases createOk with
    | false => simp at h
    | true =>
      simp only [if_true, Outcome.ok.injEq] at h
      subst h
      refine ⟨rfl, by simp, Or.inr ⟨rfl, _, _, rfl, rfl, rfl, rfl, Or.inl ⟨rfl, Or.inl hnil⟩⟩⟩
  | some s =>
    rw [hl] at h
    have hne : ms.segments ≠ [] := by
      intro hnil
      rw [hnil] at hl
      simp at hl
    have hlen : 0 < ms.segments.length := List.length_pos.mpr hne
    by_cases hbig : s.byteSize > (env.MAX_SEGMENT_SIZE : Int)
    · simp only [hbig, if_true] at h
      cases createOk with
      | false =>
        simp only [Bool.false_eq_true, if_false, Outcome.ok.injEq] at h
        subst h
        exact ⟨rfl, by simp only []; omega, Or.inl ⟨rfl, hne, by simp⟩⟩
      | true =>
        simp only [if_true, Outcome.ok.injEq] at h
        subst h
        refine ⟨rfl, ?_, Or.inr ⟨rfl, _, _, rfl, rfl, rfl, rfl, ?_⟩⟩
        · simp only [List.length_append, List.length_singleton]
          split <;> simp
        · by_cases hc : (ms.segments.length : Int) ≥ ms.segcacheSize
          · rw [if_pos hc]
            exact Or.inr ⟨s, rfl, hbig, rfl⟩
          · rw [if_neg hc]
            exact Or.inl ⟨rfl, Or.inr ⟨s, rfl, hbig⟩⟩
    · simp only [hbig, if_false, Outcome.ok.injEq] at h
      subst h
      refine ⟨rfl, by simp only []; omega, Or.inl ⟨rfl, hne, ?_⟩⟩
      intro _ t ht
      cases ht
      omega

theorem flushTo_spec {ms ms1 : MemorySnapshot} {lastSeg : Nat} {batch : List Chunk} {appendOk : Bool}
    (h : flushTo ms lastSeg batch appendOk = .ok ms1) :
    ∃ s, ms.segments[lastSeg]? = some s ∧
      ms1 = { ms with
              segments := ms.segments.set lastSeg (s.Append ms.disk batch appendOk).1
              disk := (s.Append ms.disk batch appendOk).2.1 } := by
  unfold flushTo at h
  cases hs : ms.segments[lastSeg]? with
  | none => rw [hs] at h; simp at h
  | some s =>
    rw [hs] at h
    simp only [Outcome.ok.injEq] at h
    exact ⟨s, rfl, h.symm⟩

theorem flushTo_ok (ms : MemorySnapshot) (lastSeg : Nat) (batch : List Chunk) (appendOk : Bool)
    (h : lastSeg < ms.segments.length) :
    ∃ ms1, flushTo ms lastSeg batch appendOk = .ok ms1 := by
  unfold flushTo
  rw [List.getElem?_eq_getElem h]
  exact ⟨_, rfl⟩



/-- The ways one scheduling of the flush goroutine can return. -/
theorem syncStep_cases {env : Env} {ms : MemorySnapshot} {sy : SyncState} {appendOk createOk : Bool}
    {x : MemorySnapshot × SyncState × List (List Chunk)}
    (h : syncStep env ms sy appendOk createOk = .ok x) :
    (sy.phase = Phase.init ∧ 0 ≤ ms.batchSize ∧ ∃ r, checkRoll env ms createOk = .ok r ∧
        x = (r.1, { batch := [], batchCap := ms.batchSize.toNat, lastSeg := r.2,
                    phase := Phase.loop }, [])) ∨
    (sy.phase = Phase.loop ∧ ms.running = true ∧
        forceFlush ms.writeChannel.head? (popBatch sy.batch ms.writeChannel.head?)
          (popCap env sy.batch sy.batchCap ms.writeChannel.head?) = true ∧
        ∃ ms2 r, flushTo { ms with writeChannel := ms.writeChannel.tail } sy.lastSeg
            (popBatch sy.batch ms.writeChannel.head?) appendOk = .ok ms2 ∧
          checkRoll env ms2 createOk = .ok r ∧
          x = (r.1, { batch := [], batchCap := popCap env sy.batch sy.batchCap ms.writeChannel.head?,
                      lastSeg := r.2, phase := Phase.loop },
               [popBatch sy.batch ms.writeChannel.head?])) ∨
    (sy.phase = Phase.loop ∧ ms.running = true ∧
        forceFlush ms.writeChannel.head? (popBatch sy.batch ms.writeChannel.head?)
          (popCap env sy.batch sy.batchCap ms.writeChannel.head?) = false ∧
        ∃ r, checkRoll env { ms with writeChannel := ms.writeChannel.tail } createOk = .ok r ∧
          x = (r.1, { batch := popBatch sy.batch ms.writeChannel.head?,
                      batchCap := popCap env sy.batch sy.batchCap ms.writeChannel.head?,
                      lastSeg := r.2, phase := Phase.loop }, [])) ∨
    (sy.phase = Phase.loop ∧ ms.running = false ∧ ms.chanClosed = false ∧
        sy.batch ++ ms.writeChannel ≠ [] ∧
        ∃ ms2, flushTo { ms with writeChannel := [] } sy.lastSeg (sy.batch ++ ms.writeChannel)
            appendOk = .ok ms2 ∧
          x = (ms2, { sy with batch := [], phase := Phase.done }, [sy.batch ++ ms.writeChannel])) ∨
    (sy.phase = Phase.loop ∧ ms.running = false ∧ ms.chanClosed = false ∧
        sy.batch ++ ms.writeChannel = [] ∧
        x = ({ ms with writeChannel := [] }, { sy with batch := [], phase := Phase.done }, [])) ∨
    (sy.phase = Phase.done ∧ x = (ms, sy, [])) := by
  unfold syncStep at h
  cases hp : sy.phase with
  | init =>
    rw [hp] at h
    simp only at h
    by_cases hb : ms.batchSize < 0
    · simp [hb] at h
    · rw [if_neg hb] at h
      obtain ⟨r, hr, hx⟩ := Outcome.bind_eq_ok h
      simp only [Outcome.ok.injEq] at hx
      exact Or.inl ⟨rfl, by omega, r, hr, hx.symm⟩
  | loop =>
    rw [hp] at h
    simp only at h
    by_cases hrun : ms.running = true
    · rw [if_pos hrun] at h
      by_cases hf : forceFlush ms.writeChannel.head? (popBatch sy.batch ms.writeChannel.head?)
          (popCap env sy.batch sy.batchCap ms.writeChannel.head?) = true
      · rw [if_pos hf] at h
        obtain ⟨ms2, hms2, h2⟩ := Outcome.bind_eq_ok h
        obtain ⟨r, hr, hx⟩ := Outcome.bind_eq_ok h2
        simp only [Outcome.ok.injEq] at hx
        exact Or.inr (Or.inl ⟨rfl, hrun, hf, ms2, r, hms2, hr, hx.symm⟩)
      · rw [if_neg hf] at h
        obtain ⟨r, hr, hx⟩ := Outcome.bind_eq_ok h
        simp only [Outcome.ok.injEq] at hx
        exact Or.inr (Or.inr (Or.inl ⟨rfl, hrun, by simpa using hf, r, hr, hx.symm⟩))
    · rw [if_neg hrun] at h
      have hrun2 : ms.running = false := by simpa using hrun
      by_cases hc : ms.chanClosed = true
      · simp [hc] at h
      · rw [if_neg hc] at h
        have hc2 : ms.chanClosed = false := by simpa using hc
        by_cases hl : (sy.batch ++ ms.writeChannel).length > 0
        · rw [if_pos hl] at h
          obtain ⟨ms2, hms2, hx⟩ := Outcome.bind_eq_ok h
          simp only [Outcome.ok.injEq] at hx
          exact Or.inr (Or.inr (Or.inr (Or.inl ⟨rfl, hrun2, hc2,
            List.length_pos.mp hl, ms2, hms2, hx.symm⟩)))
        · rw [if_neg hl] at h
          have hnil : sy.batch ++ ms.writeChannel = [] := by
            apply List.eq_nil_of_length_eq_zero
            omega
          simp only [Outcome.ok.injEq] at h
          rw [hnil] at h
          exact Or.inr (Or.inr (Or.inr (Or.inr (Or.inl ⟨rfl, hrun2, hc2, hnil, h.symm⟩))))
  | done =>
    rw [hp] at h
    simp only [Outcome.ok.injEq] at h
    exact Or.inr (Or.inr (Or.inr (Or.inr (Or.inr ⟨rfl, h.symm⟩))))

theorem checkRoll_frame {env : Env} {ms : MemorySnapshot} {createOk : Bool}
    {r : MemorySnapshot × Nat} (h : checkRoll env ms createOk = .ok r) :
    r.1.chunkId = ms.chunkId ∧ r.1.writeChannel = ms.writeChannel ∧
      r.1.chanClosed = ms.chanClosed ∧ r.1.running = ms.running ∧
      r.1.batchSize = ms.batchSize ∧ r.2 < r.1.segments.length ∧
      ms.segments.length ≤ r.1.segments.length := by
  obtain ⟨hf, hl, hs⟩ := checkRoll_spec h
  refine ⟨by rw [hf], by rw [hf], by rw [hf], by rw [hf], by rw [hf], by omega, ?_⟩
  rcases hs with ⟨he, _, _⟩ | ⟨_, old, news, he, _, _, _, ho⟩
  · rw [he]
  · rw [he]
    rcases ho with ⟨ho, _⟩ | ⟨s, _, _, ho⟩
    · rw [ho]; simp
    · rw [ho]; simp

theorem flushTo_frame {ms ms1 : MemorySnapshot} {lastSeg : Nat} {batch : List Chunk}
    {appendOk : Bool} (h : flushTo ms lastSeg batch appendOk = .ok ms1) :
    ms1.chunkId = ms.chunkId ∧ ms1.writeChannel = ms.writeChannel ∧
      ms1.chanClosed = ms.chanClosed ∧ ms1.running = ms.running ∧
      ms1.batchSize = ms.batchSize ∧ ms1.segments.length = ms.segments.length := by
  obtain ⟨s, _, hms⟩ := flushTo_spec h
  subst hms
  simp

theorem popBatch_tail (batch channel : List Chunk) :
    popBatch batch channel.head? ++ channel.tail = batch ++ channel := by
  cases channel <;> simp [popBatch]

/-- One scheduling of the flush goroutine keeps the cursor and the lifecycle
flags, moves chunks from the channel over the batch into flushed batches
without losing or reordering any, keeps `lastSeg` inside the directory, and
returns with the goroutine finished only when it had finished before or when
`running` is false, in which case batch and channel are empty afterwards. -/
theorem syncStep_frame {env : Env} {ms : MemorySnapshot} {sy : SyncState} {appendOk createOk : Bool}
    {x : MemorySnapshot × SyncState × List (List Chunk)}
    (h : syncStep env ms sy appendOk createOk = .ok x)
    (hb0 : sy.phase = Phase.init → sy.batch = []) :
    x.1.chunkId = ms.chunkId ∧ x.1.chanClosed = ms.chanClosed ∧ x.1.running = ms.running ∧
      x.1.batchSize = ms.batchSize ∧
      x.2.2.flatten ++ x.2.1.batch ++ x.1.writeChannel = sy.batch ++ ms.writeChannel ∧
      ms.segments.length ≤ x.1.segments.length ∧
      (x.2.1.phase = Phase.init → sy.phase = Phase.init ∧ x.2.1.batch = []) ∧
      (sy.phase ≠ Phase.init → sy.lastSeg < ms.segments.length →
        x.2.1.lastSeg < x.1.segments.length) ∧
      (sy.phase = Phase.init → x.2.1.lastSeg < x.1.segments.length) ∧
      (x.2.1.phase = Phase.done →
        (sy.phase = Phase.done ∨ ms.running = false) ∧
          (sy.phase = Phase.done ∨ (x.2.1.batch = [] ∧ x.1.writeChannel = []))) := by
  rcases syncStep_cases h with ⟨hp, _, r, hr, hx⟩ | ⟨hp, hrun, _, ms2, r, hms2, hr, hx⟩ |
    ⟨hp, hrun, _, r, hr, hx⟩ | ⟨hp, hrun, hc, _, ms2, hms2, hx⟩ | ⟨hp, hrun, hc, hnil, hx⟩ |
    ⟨hp, hx⟩
  · obtain ⟨h1, h2, h3, h4, h5, h6, h7⟩ := checkRoll_frame hr
    subst hx
    dsimp only
    refine ⟨h1, h3, h4, h5, ?_, h7, ?_, ?_, ?_, ?_⟩
    · rw [h2, hb0 hp]; simp
    · intro hh; cases hh
    · intro hh; exact absurd hp hh
    · intro _; exact h6
    · intro hh; cases hh
  · obtain ⟨h1, h2, h3, h4, h5, h6, h7⟩ := checkRoll_frame hr
    obtain ⟨g1, g2, g3, g4, g5, g6⟩ := flushTo_frame hms2
    have g2b : ms2.writeChannel = ms.writeChannel.tail := g2
    have g6b : ms2.segments.length = ms.segments.length := g6
    subst hx
    dsimp only
    refine ⟨by rw [h1, g1], by rw [h3, g3], by rw [h4, g4], by rw [h5, g5], ?_, ?_, ?_, ?_, ?_, ?_⟩
    · rw [h2, g2b]
      simp only [List.flatten_cons, List.flatten_nil, List.append_nil]
      exact popBatch_tail _ _
    · omega
    · intro hh; cases hh
    · intro _ _; exact h6
    · intro _; exact h6
    · intro hh; cases hh
  · obtain ⟨h1, h2, h3, h4, h5, h6, h7⟩ := checkRoll_frame hr
    have h2b : r.1.writeChannel = ms.writeChannel.tail := h2
    have h7b : ms.segments.length ≤ r.1.segments.length := h7
    subst hx
    dsimp only
    refine ⟨h1, h3, h4, h5, ?_, h7b, ?_, ?_, ?_, ?_⟩
    · rw [h2b]
      simp only [List.flatten_nil, List.nil_append]
      exact popBatch_tail _ _
    · intro hh; cases hh
    · intro _ _; exact h6
    · intro _; exact h6
    · intro hh; cases hh
  · obtain ⟨g1, g2, g3, g4, g5, g6⟩ := flushTo_frame hms2
    have g2b : ms2.writeChannel = [] := g2
    have g6b : ms2.segments.length = ms.segments.length := g6
    subst hx
    dsimp only
    refine ⟨g1, g3, g4, g5, ?_, by omega, ?_, ?_, ?_, ?_⟩
    · rw [g2b]; simp
    · intro hh; cases hh
    · intro _ hl; omega
    · intro hh; rw [hp] at hh; cases hh
    · intro _; exact ⟨Or.inr hrun, Or.inr ⟨rfl, g2b⟩⟩
  · subst hx
    dsimp only
    refine ⟨rfl, rfl, rfl, rfl, ?_, le_refl _, ?_, ?_, ?_, ?_⟩
    · simp [hnil]
    · intro hh; cases hh
    · intro _ hl; exact hl
    · intro hh; rw [hp] at hh; cases hh
    · intro _; exact ⟨Or.inr hrun, Or.inr ⟨rfl, rfl⟩⟩
  · subst hx
    dsimp only
    refine ⟨rfl, rfl, rfl, rfl, by simp, le_refl _, ?_, ?_, ?_, ?_⟩
    · intro hh; rw [hp] at hh; cases hh
    · intro _ hl; exact hl
    · intro hh; rw [hp] at hh; cases hh
    · intro _; exact ⟨Or.inl hp, Or.inl hp⟩

/-- The result of `Append` on a running engine whose channel is open and not full. -/
theorem Append_running (env : Env) (ms : MemorySnapshot) (msg : List UInt8)
    (hrun : ms.running = true) (hopen : ms.chanClosed = false)
    (hroom : ms.writeChannel.length < writeChannelCap) :
    Append env ms msg = .ok
      ({ ms with
          chunkId := wrap64 (ms.chunkId + 1)
          writeChannel := ms.writeChannel ++
            [{ length := wrap32 ((env.CHUNK_HEADER : Int) + (msg.length : Int))
               id := wrap64 (ms.chunkId + 1)
               checksum := env.checksumIEEE msg
               data := msg
               flag := Flag.NORMAL }] }, wrap64 (ms.chunkId + 1)) := by
  unfold Append
  rw [if_pos hrun]
  dsimp only
  rw [if_neg (by simp [hopen]), if_neg (by omega)]

/-- The two ways `Append` can return. -/
theorem Append_cases {env : Env} {ms : MemorySnapshot} {msg : List UInt8}
    {r : MemorySnapshot × Int} (h : Append env ms msg = .ok r) :
    (ms.running = true ∧ ms.chanClosed = false ∧ ms.writeChannel.length < writeChannelCap ∧
        r.2 = wrap64 (ms.chunkId + 1) ∧
        ∃ chunk : Chunk, chunk.id = r.2 ∧ chunk.data = msg ∧
          chunk.length = wrap32 ((env.CHUNK_HEADER : Int) + (msg.length : Int)) ∧
          r.1 = { ms with chunkId := r.2, writeChannel := ms.writeChannel ++ [chunk] }) ∨
      (ms.running = false ∧ ms.chanClosed = false ∧ r = ({ ms with chanClosed := true }, -1)) := by
  unfold Append at h
  by_cases hrun : ms.running = true
  · rw [if_pos hrun] at h
    by_cases hc : ms.chanClosed = true
    · simp [hc] at h
    · by_cases hfull : ms.writeChannel.length ≥ writeChannelCap
      · simp [hc, hfull] at h
      · dsimp only at h
        rw [if_neg hc, if_neg hfull] at h
        simp only [Outcome.ok.injEq] at h
        subst h
        exact Or.inl ⟨hrun, by simpa using hc, Nat.lt_of_not_ge hfull, rfl,
          ⟨{ length := wrap32 ((env.CHUNK_HEADER : Int) + (msg.length : Int)),
             id := wrap64 (ms.chunkId + 1), checksum := env.checksumIEEE msg, data := msg,
             flag := Flag.NORMAL }, rfl, rfl, rfl, rfl⟩⟩
  · rw [if_neg hrun] at h
    by_cases hc : ms.chanClosed = true
    · simp [hc] at h
    · rw [if_neg hc] at h
      simp only [Outcome.ok.injEq] at h
      exact Or.inr ⟨by simpa using hrun, by simpa using hc, h.symm⟩

/-- A property kept by every allowed action holds after every run of allowed
actions. -/
theorem run_invariant (env : Env) (P : World → Prop) (allowed : Step → Prop)
    (hstep : ∀ w s w1, P w → allowed s → step env w s = .ok w1 → P w1) :
    ∀ (steps : List Step) (w w1 : World), (∀ s ∈ steps, allowed s) → P w →
      run env w steps = .ok w1 → P w1 := by
  intro steps
  induction steps with
  | nil =>
    intro w w1 _ hP hrun
    simp only [run, Outcome.ok.injEq] at hrun
    subst hrun
    exact hP
  | cons s rest ih =>
    intro w w1 hall hP hrun
    simp only [run] at hrun
    obtain ⟨w2, hw2, hrest⟩ := Outcome.bind_eq_ok hrun
    exact ih w2 w1 (fun t ht => hall t (List.mem_cons_of_mem _ ht))
      (hstep w s w2 hP (hall s (List.mem_cons_self _ _)) hw2) hrest

/-! ## Lemmas: invariants of runs -/

theorem wrap64_of_range {x : Int} (h1 : -9223372036854775808 ≤ x) (h2 : x < 9223372036854775808) :
    wrap64 x = x := by
  unfold wrap64
  omega

theorem step_sync_eq {env : Env} {w w1 : World} {appendOk createOk : Bool}
    (h : step env w (Step.sync appendOk createOk) = .ok w1) :
    ∃ x, syncStep env w.ms w.sy appendOk createOk = .ok x ∧
      w1 = { w with ms := x.1, sy := x.2.1, flushed := w.flushed ++ x.2.2,
                    writes := w.writes ++ loggedWrites appendOk w.sy.lastSeg x.2.2 } := by
  simp only [step] at h
  obtain ⟨x, hx, hw⟩ := Outcome.bind_eq_ok h
  simp only [Outcome.ok.injEq] at hw
  exact ⟨x, hx, hw.symm⟩

theorem step_append_eq {env : Env} {w w1 : World} {msg : List UInt8}
    (h : step env w (Step.append msg) = .ok w1) :
    ∃ r, Append env w.ms msg = .ok r ∧
      w1 = { w with ms := r.1, returned := w.returned ++ [r.2],
                    sent := w.sent ++ (r.1.writeChannel.drop w.ms.writeChannel.length) } := by
  simp only [step] at h
  obtain ⟨r, hr, hw⟩ := Outcome.bind_eq_ok h
  simp only [Outcome.ok.injEq] at hw
  exact ⟨r, hr, hw.symm⟩

theorem step_stop_eq {env : Env} {w w1 : World} (h : step env w Step.stop = .ok w1) :
    w1 = { w with ms := { w.ms with running := false } } := by
  simp only [step, Outcome.ok.injEq] at h
  exact h.symm

theorem queueInv_step (env : Env) (w : World) (s : Step) (w1 : World) (hP : QueueInv w)
    (_ : True) (h : step env w s = .ok w1) : QueueInv w1 := by
  obtain ⟨heq, hinit, hdone⟩ := hP
  cases s with
  | append msg =>
    obtain ⟨r, hr, hw⟩ := step_append_eq h
    subst hw
    rcases Append_cases hr with ⟨hrun, _, _, _, chunk, _, _, _, hr1⟩ | ⟨hrun, _, hr1⟩
    · refine ⟨?_, hinit, ?_⟩
      · rw [hr1]
        simp only [List.drop_left]
        rw [← heq]
        simp
      · intro hd
        have := (hdone hd).1
        rw [hrun] at this
        cases this
    · subst hr1
      refine ⟨?_, hinit, hdone⟩
      simp only [List.drop_length, List.append_nil]
      exact heq
  | sync appendOk createOk =>
    obtain ⟨x, hx, hw⟩ := step_sync_eq h
    subst hw
    obtain ⟨_, _, f3, _, f5, _, f7, _, _, f10⟩ := syncStep_frame hx hinit
    refine ⟨?_, fun hp => (f7 hp).2, ?_⟩
    · simp only [List.flatten_append, List.append_assoc]
      rw [← heq]
      have := f5
      simp only [List.append_assoc] at this
      rw [this, List.append_assoc]
    · intro hd
      obtain ⟨g1, g2⟩ := f10 hd
      rcases g2 with hdd | ⟨hb, hc⟩
      · obtain ⟨k1, k2, k3⟩ := hdone hdd
        rcases syncStep_cases hx with ⟨hp, _⟩ | ⟨hp, _⟩ | ⟨hp, _⟩ | ⟨hp, _⟩ | ⟨hp, _⟩ | ⟨_, hxe⟩
        all_goals first
          | (rw [hp] at hdd; cases hdd)
          | (subst hxe; exact ⟨k1, k2, k3⟩)
      · refine ⟨?_, hb, hc⟩
        rw [f3]
        rcases g1 with hdd | hr
        · exact (hdone hdd).1
        · exact hr
  | stop =>
    have hw := step_stop_eq h
    subst hw
    exact ⟨heq, hinit, fun hd => ⟨rfl, (hdone hd).2⟩⟩

theorem dirInv_step (env : Env) (b : Int) (w : World) (s : Step) (w1 : World) (hP : DirInv b w)
    (hq : w.sy.phase = Phase.init → w.sy.batch = []) (h : step env w s = .ok w1) :
    DirInv b w1 := by
  obtain ⟨hne, hlast, hb⟩ := hP
  cases s with
  | append msg =>
    obtain ⟨r, hr, hw⟩ := step_append_eq h
    subst hw
    rcases Append_cases hr with ⟨_, _, _, _, chunk, _, _, _, hr1⟩ | ⟨_, _, hr1⟩
    · rw [hr1]; exact ⟨hne, hlast, hb⟩
    · subst hr1; exact ⟨hne, hlast, hb⟩
  | sync appendOk createOk =>
    obtain ⟨x, hx, hw⟩ := step_sync_eq h
    subst hw
    obtain ⟨_, _, _, f4, _, f6, _, f8, f9, _⟩ := syncStep_frame hx hq
    refine ⟨?_, ?_, by rw [← hb]; exact f4⟩
    · intro hnil
      have : w.ms.segments.length = 0 := by
        have h0 : x.1.segments.length = 0 := by
          show ({ w with ms := x.1, sy := x.2.1, flushed := w.flushed ++ x.2.2 } : World).ms.segments.length = 0
          rw [hnil]; rfl
        omega
      exact hne (List.eq_nil_of_length_eq_zero this)
    · intro _
      by_cases hp : w.sy.phase = Phase.init
      · exact f9 hp
      · exact f8 hp (hlast hp)
  | stop =>
    have hw := step_stop_eq h
    subst hw
    exact ⟨hne, hlast, hb⟩

theorem idInv_step (env : Env) (c0 : Int) (hc0 : -9223372036854775808 ≤ c0 + 1) (w : World)
    (s : Step) (w1 : World) (hP : IdInv c0 w ∧ (w.sy.phase = Phase.init → w.sy.batch = []))
    (hs : s ≠ Step.stop) (h : step env w s = .ok w1) : IdInv c0 w1 := by
  obtain ⟨⟨hrun, hopen, hids⟩, hq⟩ := hP
  cases s with
  | append msg =>
    obtain ⟨r, hr, hw⟩ := step_append_eq h
    subst hw
    rcases Append_cases hr with ⟨_, _, _, hid, chunk, hcid, _, _, hr1⟩ | ⟨hrun2, _, _⟩
    · refine ⟨by rw [hr1]; exact hrun, by rw [hr1]; exact hopen, ?_⟩
      intro hov
      simp only [List.length_append, List.length_singleton, Nat.cast_add, Nat.cast_one] at hov ⊢
      obtain ⟨k1, k2, k3⟩ := hids (by omega)
      have hval : r.2 = c0 + 1 + (w.returned.length : Int) := by
        rw [hid, k1]
        rw [wrap64_of_range (by omega) (by omega)]
        omega
      refine ⟨?_, ?_, ?_⟩
      · rw [hr1]
        show r.2 = c0 + ((w.returned.length : Int) + 1)
        omega
      · rw [List.range_succ, List.map_append, ← k2, hval]
        simp
      · rw [hr1]
        simp only [List.drop_left, List.map_append, List.map_cons, List.map_nil, k3, hcid]
    · rw [hrun] at hrun2
      cases hrun2
  | sync appendOk createOk =>
    obtain ⟨x, hx, hw⟩ := step_sync_eq h
    subst hw
    obtain ⟨f1, f2, f3, _⟩ := syncStep_frame hx hq
    refine ⟨by rw [← hrun]; exact f3, by rw [← hopen]; exact f2, ?_⟩
    intro hov
    obtain ⟨k1, k2, k3⟩ := hids hov
    exact ⟨by rw [← k1]; exact f1, k2, k3⟩
  | stop => exact absurd rfl hs

/-- Every call of `Append` in a run that returns adds one returned value. -/
theorem run_returned_length (env : Env) :
    ∀ (steps : List Step) (w w1 : World), run env w steps = .ok w1 →
      w1.returned.length = w.returned.length + (steps.filter Step.isAppend).length := by
  intro steps
  induction steps with
  | nil =>
    intro w w1 h
    simp only [run, Outcome.ok.injEq] at h
    subst h
    simp
  | cons s rest ih =>
    intro w w1 h
    simp only [run] at h
    obtain ⟨w2, hw2, hrest⟩ := Outcome.bind_eq_ok h
    rw [ih w2 w1 hrest]
    cases s with
    | append msg =>
      obtain ⟨r, _, hw⟩ := step_append_eq hw2
      subst hw
      simp [Step.isAppend]
      omega
    | sync appendOk createOk =>
      obtain ⟨x, _, hw⟩ := step_sync_eq hw2
      subst hw
      simp [Step.isAppend]
    | stop =>
      have hw := step_stop_eq hw2
      subst hw
      simp [Step.isAppend]

theorem queueInv_run (env : Env) (steps : List Step) (w w1 : World) (hP : QueueInv w)
    (h : run env w steps = .ok w1) : QueueInv w1 :=
  run_invariant env QueueInv (fun _ => True) (queueInv_step env) steps w w1
    (fun _ _ => trivial) hP h

theorem dirInv_run (env : Env) (b : Int) (steps : List Step) (w w1 : World)
    (hP : DirInv b w ∧ QueueInv w) (h : run env w steps = .ok w1) : DirInv b w1 ∧ QueueInv w1 :=
  run_invariant env (fun v => DirInv b v ∧ QueueInv v) (fun _ => True)
    (fun v s v1 hv _ hs => ⟨dirInv_step env b v s v1 hv.1 hv.2.2.1 hs,
      queueInv_step env v s v1 hv.2 trivial hs⟩)
    steps w w1 (fun _ _ => trivial) hP h

theorem idInv_run (env : Env) (c0 : Int) (hc0 : -9223372036854775808 ≤ c0 + 1)
    (steps : List Step) (w w1 : World) (hsteps : ∀ s ∈ steps, s ≠ Step.stop)
    (hP : IdInv c0 w ∧ QueueInv w) (h : run env w steps = .ok w1) : IdInv c0 w1 ∧ QueueInv w1 :=
  run_invariant env (fun v => IdInv c0 v ∧ QueueInv v) (fun s => s ≠ Step.stop)
    (fun v s v1 hv hs hst => ⟨idInv_step env c0 hc0 v s v1 ⟨hv.1, hv.2.2.1⟩ hs hst,
      queueInv_step env v s v1 hv.2 trivial hst⟩)
    steps w w1 hsteps hP h

theorem queueInv_start (ms : MemorySnapshot) (h : ms.writeChannel = []) :
    QueueInv (World.start ms) := by
  refine ⟨?_, fun _ => rfl, ?_⟩
  · simp [World.start, SyncState.start, h]
  · intro hd
    simp [World.start, SyncState.start] at hd

/-- What `NewMemorySnapshot` guarantees about the store it returns. -/
theorem NewMemorySnapshot_fields {env : Env} {baseDirOk createOk : Bool} {entries : List DirEntry}
    {b c : Int} {ms0 : MemorySnapshot}
    (h : NewMemorySnapshot env baseDirOk entries createOk b c = .ok ms0) :
    ms0.writeChannel = [] ∧ ms0.chanClosed = false ∧ ms0.running = true ∧ ms0.batchSize = b ∧
      ms0.segcacheSize = c ∧ ms0.segmentCache = [] ∧ ms0.segments ≠ [] := by
  unfold NewMemorySnapshot load at h
  cases baseDirOk with
  | false => simp at h
  | true =>
    simp only [Bool.not_true, Bool.false_eq_true, if_false] at h
    obtain ⟨r, hr, hrec⟩ := Outcome.bind_eq_ok h
    obtain ⟨hf, hl, _⟩ := checkRoll_spec hr
    unfold recoverSnapshot at hrec
    have hne : r.1.segments ≠ [] := by
      intro hnil
      rw [hnil] at hl
      simp at hl
    split at hrec
    · simp only [Outcome.ok.injEq] at hrec
      subst hrec
      rw [hf]
      exact ⟨rfl, rfl, rfl, rfl, rfl, rfl, hne⟩
    · split at hrec
      · simp at hrec
      · simp only [Outcome.ok.injEq] at hrec
        subst hrec
        rw [hf]
        refine ⟨rfl, rfl, rfl, rfl, rfl, rfl, ?_⟩
        intro hnil
        have := congrArg List.length hnil
        simp only [List.length_set, List.length_nil] at this
        exact hne (List.eq_nil_of_length_eq_zero this)

theorem checkRoll_ok (env : Env) (ms : MemorySnapshot) (createOk : Bool) (h : ms.segments ≠ []) :
    ∃ r, checkRoll env ms createOk = .ok r := by
  unfold checkRoll
  cases hl : ms.segments.getLast? with
  | none => exact absurd (List.getLast?_eq_none_iff.mp hl) h
  | some s =>
    simp only
    split
    · split
      · exact ⟨_, rfl⟩
      · exact ⟨_, rfl⟩
    · exact ⟨_, rfl⟩

theorem drain_ok (env : Env) (ms : MemorySnapshot) (sy : SyncState) (appendOk createOk : Bool)
    (hp : sy.phase = Phase.loop) (hr : ms.running = false) (hc : ms.chanClosed = false)
    (hl : sy.lastSeg < ms.segments.length) :
    ∃ x, syncStep env ms sy appendOk createOk = .ok x ∧ x.2.1.phase = Phase.done := by
  unfold syncStep
  rw [hp]
  dsimp only
  rw [if_neg (by simp [hr]), if_neg (by simp [hc])]
  by_cases hlen : (sy.batch ++ ms.writeChannel).length > 0
  · rw [if_pos hlen]
    obtain ⟨ms2, hms2⟩ := flushTo_ok { ms with writeChannel := [] } sy.lastSeg
      (sy.batch ++ ms.writeChannel) appendOk hl
    rw [hms2]
    exact ⟨_, rfl, rfl⟩
  · rw [if_neg hlen]
    exact ⟨_, rfl, rfl⟩

theorem run_single (env : Env) (w : World) (s : Step) :
    run env w [s] = step env w s := by
  simp only [run]
  cases step env w s <;> rfl

/-- With `running` false and the channel open, the flush goroutine returns after
at most two schedulings (one to start, one to drain). -/
theorem finish_ok (env : Env) (b : Int) (hb : 0 ≤ b) (w : World) (appendOk createOk : Bool)
    (hd : DirInv b w) (hrun : w.ms.running = false) (hopen : w.ms.chanClosed = false) :
    ∃ w1, (match w.sy.phase with
        | .init => run env w [Step.sync appendOk createOk, Step.sync appendOk createOk]
        | .loop => run env w [Step.sync appendOk createOk]
        | .done => .ok w) = .ok w1 ∧ w1.sy.phase = Phase.done := by
  obtain ⟨hne, hlast, hbs⟩ := hd
  have drain : ∀ v : World, v.sy.phase = Phase.loop → v.ms.running = false →
      v.ms.chanClosed = false → v.sy.lastSeg < v.ms.segments.length →
      ∃ v1, run env v [Step.sync appendOk createOk] = .ok v1 ∧ v1.sy.phase = Phase.done := by
    intro v hp hr hc hl
    obtain ⟨x, hx, hxp⟩ := drain_ok env v.ms v.sy appendOk createOk hp hr hc hl
    rw [run_single]
    simp only [step, hx, Outcome.bind]
    exact ⟨_, rfl, hxp⟩
  cases hp : w.sy.phase with
  | init =>
    simp only
    obtain ⟨r, hr⟩ := checkRoll_ok env w.ms createOk hne
    have hnb : ¬ (w.ms.batchSize < 0) := by omega
    obtain ⟨_, _, h3, h4, _, h6, _⟩ := checkRoll_frame hr
    have hstep1 : step env w (Step.sync appendOk createOk) = .ok
        { w with ms := r.1, sy := { batch := [], batchCap := w.ms.batchSize.toNat, lastSeg := r.2,
                                    phase := Phase.loop }, flushed := w.flushed ++ [],
                 writes := w.writes ++ loggedWrites appendOk w.sy.lastSeg [] } := by
      simp only [step, syncStep, hp, hnb, if_false, hr, Outcome.bind]
    obtain ⟨v1, hv1, hv1p⟩ := drain
      { w with ms := r.1, sy := { batch := [], batchCap := w.ms.batchSize.toNat, lastSeg := r.2,
                                  phase := Phase.loop }, flushed := w.flushed ++ [],
                 writes := w.writes ++ loggedWrites appendOk w.sy.lastSeg [] }
      rfl (by show r.1.running = false; rw [h4]; exact hrun)
      (by show r.1.chanClosed = false; rw [h3]; exact hopen) h6
    refine ⟨v1, ?_, hv1p⟩
    rw [run, hstep1]
    exact hv1
  | loop =>
    simp only
    exact drain w hp hrun hopen (hlast (by rw [hp]; simp))
  | done => exact ⟨w, rfl, hp⟩

theorem run_sync_keeps_sent (env : Env) (steps : List Step) (w w1 : World)
    (hs : ∀ s ∈ steps, Step.isAppend s = false) (h : run env w steps = .ok w1) :
    w1.sent = w.sent ∧ w1.returned = w.returned := by
  refine run_invariant env (fun v => v.sent = w.sent ∧ v.returned = w.returned)
    (fun s => Step.isAppend s = false) ?_ steps w w1 hs ⟨rfl, rfl⟩ h
  intro v s v1 hv hsa hst
  cases s with
  | append msg => simp [Step.isAppend] at hsa
  | sync appendOk createOk =>
    obtain ⟨x, _, hw⟩ := step_sync_eq hst
    subst hw
    exact hv
  | stop =>
    have hw := step_stop_eq hst
    subst hw
    exact hv

/-! ## Write path -/

/-- Calls of `Append` on a running engine return as long as the channel has
room for their chunks. -/
theorem appends_return (env : Env) :
    ∀ (msgs : List (List UInt8)) (w : World), w.ms.running = true → w.ms.chanClosed = false →
      w.ms.writeChannel.length + msgs.length ≤ writeChannelCap →
      ∃ w1, run env w (msgs.map Step.append) = .ok w1 := by
  intro msgs
  induction msgs with
  | nil =>
    intro w _ _ _
    exact ⟨w, rfl⟩
  | cons msg rest ih =>
    intro w hrun hopen hroom
    simp only [List.length_cons] at hroom
    have happ := Append_running env w.ms msg hrun hopen (by omega)
    simp only [List.map_cons, run, step, happ, Outcome.bind]
    apply ih
    · exact hrun
    · exact hopen
    · simp only [List.length_append, List.length_singleton]
      omega

/-- C1.  Monotonic ids.  A call of `Append` on a running engine returns the
cursor plus one in 64-bit arithmetic and leaves the cursor there; so on a store
whose channel is open and empty, in every run of `Append` calls interleaved
with schedulings of the flush goroutine, as long as no id overflows, every
`Append` call returned, the returned ids are `chunkId + 1, chunkId + 2, ...` in
call order (`0, 1, ..., n-1` from the cursor `-1` of a fresh store), the chunks
were sent on the channel with these ids in this order, and the flushed
batches, the current batch and the channel hold exactly these chunks in this
order.  Up to the capacity of the channel, calls of `Append` alone form such a
run: they all return. -/
theorem append_ids_consecutive (env : Env) (ms0 : MemorySnapshot) (steps : List Step) (w : World)
    (hrunning : ms0.running = true) (hopen : ms0.chanClosed = false)
    (hempty : ms0.writeChannel = [])
    (hlow : -9223372036854775808 ≤ ms0.chunkId + 1)
    (hsteps : ∀ s ∈ steps, s ≠ Step.stop)
    (hrun : run env (World.start ms0) steps = .ok w)
    (hov : ms0.chunkId + (w.returned.length : Int) < 9223372036854775808) :
    (∀ ms msg r, ms.running = true → Append env ms msg = .ok r →
        r.2 = wrap64 (ms.chunkId + 1) ∧ r.1.chunkId = r.2) ∧
      w.returned.length = (steps.filter Step.isAppend).length ∧
      w.returned =
        (List.range w.returned.length).map (fun (i : Nat) => ms0.chunkId + 1 + (i : Int)) ∧
      (ms0.chunkId = -1 →
        w.returned = (List.range w.returned.length).map (fun (i : Nat) => (i : Int))) ∧
      w.sent.map (fun ch => ch.id) = w.returned ∧
      w.flushed.flatten ++ w.sy.batch ++ w.ms.writeChannel = w.sent ∧
      (∀ msgs : List (List UInt8), msgs.length ≤ writeChannelCap →
        ∃ w1, run env (World.start ms0) (msgs.map Step.append) = .ok w1) := by
  have hstart : IdInv ms0.chunkId (World.start ms0) := by
    refine ⟨hrunning, hopen, ?_⟩
    intro _
    simp [World.start]
  obtain ⟨⟨_, _, hids⟩, hq⟩ := idInv_run env ms0.chunkId hlow steps (World.start ms0) w hsteps
    ⟨hstart, queueInv_start ms0 hempty⟩ hrun
  obtain ⟨_, k2, k3⟩ := hids hov
  refine ⟨?_, ?_, k2, ?_, k3, hq.1, ?_⟩
  · intro ms msg r hr happ
    rcases Append_cases happ with ⟨_, _, _, hid, chunk, _, _, _, hr1⟩ | ⟨hr2, _, _⟩
    · exact ⟨hid, by rw [hr1]⟩
    · rw [hr] at hr2
      cases hr2
  · have := run_returned_length env steps (World.start ms0) w hrun
    simpa [World.start] using this
  · intro hfresh
    rw [hfresh] at k2
    simpa using k2
  · intro msgs hlen
    apply appends_return env msgs (World.start ms0) hrunning hopen
    show ms0.writeChannel.length + msgs.length ≤ writeChannelCap
    rw [hempty]
    simpa using hlen

/-- Example for C1: three calls on a fresh store return 0, 1, 2. -/
theorem append_ids_consecutive_witness :
    demoWorld.returned = [0, 1, 2] ∧ demoWorld.sent.map (fun ch => ch.id) = [0, 1, 2] := by
  have h := append_ids_consecutive demoEnv demoFresh demoSteps demoWorld (by decide) (by decide)
    (by decide) (by decide) (by decide) (by decide) (by decide)
  exact ⟨h.2.2.1.trans (by decide), h.2.2.2.2.1.trans (by decide)⟩

/-- How `Destory` runs on an open channel: after `running` is set to false the
flush goroutine is scheduled at most twice and has then returned, and the
segments are closed. -/
theorem Destory_run (env : Env) (b : Int) (hb : 0 ≤ b) (w : World) (appendOk createOk : Bool)
    (hd : DirInv b w) (hopen : w.ms.chanClosed = false) :
    ∃ fs w1, (∀ s ∈ fs, s = Step.sync appendOk createOk) ∧
      run env { w with ms := { w.ms with running := false } } fs = .ok w1 ∧
      w1.sy.phase = Phase.done ∧
      Destory env w appendOk createOk =
        .ok { w1 with ms := { w1.ms with segments := w1.ms.segments.map Segment.Close } } := by
  have hd1 : DirInv b { w with ms := { w.ms with running := false } } := hd
  obtain ⟨w1, hw1, hp1⟩ := finish_ok env b hb { w with ms := { w.ms with running := false } }
    appendOk createOk hd1 rfl hopen
  have hdes : Destory env w appendOk createOk =
      .ok { w1 with ms := { w1.ms with segments := w1.ms.segments.map Segment.Close } } := by
    unfold Destory
    simp only
    rw [hw1]
    rfl
  cases hph : w.sy.phase with
  | init =>
    refine ⟨[Step.sync appendOk createOk, Step.sync appendOk createOk], w1, ?_, ?_, hp1, hdes⟩
    · intro s hs
      simp at hs
      exact hs
    · have := hw1
      simp only [hph] at this
      exact this
  | loop =>
    refine ⟨[Step.sync appendOk createOk], w1, ?_, ?_, hp1, hdes⟩
    · intro s hs
      simp at hs
      exact hs
    · have := hw1
      simp only [hph] at this
      exact this
  | done =>
    refine ⟨[], w1, ?_, ?_, hp1, hdes⟩
    · intro s hs
      simp at hs
    · have := hw1
      simp only [hph] at this
      exact this

/-- C10.  The flush loop loses, duplicates and reorders nothing.  In every
state reached from a new store by calls of `Append`, schedulings of the flush
goroutine and the stop of `Destory`, the batches handed to `Segment.Append`
so far, in order, followed by the current batch and by the buffered chunks
are exactly the chunks sent on the channel, in order; once the goroutine has
returned, the flushed batches alone are all the sent chunks and batch and
channel are empty; and from every such state whose channel is still open,
`Destory` returns, with the goroutine finished and every chunk sent so far
flushed in the order it was sent. -/
theorem sync_flushes_all_in_order (env : Env) (baseDirOk createOk : Bool)
    (entries : List DirEntry) (b c : Int) (ms0 : MemorySnapshot) (steps : List Step) (w : World)
    (h0 : NewMemorySnapshot env baseDirOk entries createOk b c = .ok ms0)
    (hb : 0 ≤ b)
    (hrun : run env (World.start ms0) steps = .ok w) :
    w.flushed.flatten ++ w.sy.batch ++ w.ms.writeChannel = w.sent ∧
      (w.sy.phase = Phase.done →
        w.flushed.flatten = w.sent ∧ w.sy.batch = [] ∧ w.ms.writeChannel = []) ∧
      (w.ms.chanClosed = false → ∀ appendOk createOk2 : Bool,
        ∃ w1, Destory env w appendOk createOk2 = .ok w1 ∧ w1.sy.phase = Phase.done ∧
          w1.flushed.flatten = w.sent ∧ w1.sent = w.sent ∧ w1.sy.batch = [] ∧
          w1.ms.writeChannel = []) := by
  obtain ⟨f1, _, _, f4, _, _, f7⟩ := NewMemorySnapshot_fields h0
  have hd0 : DirInv b (World.start ms0) := by
    refine ⟨f7, ?_, f4⟩
    intro hp
    exact absurd rfl hp
  obtain ⟨hd, hq⟩ := dirInv_run env b steps (World.start ms0) w ⟨hd0, queueInv_start ms0 f1⟩ hrun
  have hdoneEq : ∀ v : World, QueueInv v → v.sy.phase = Phase.done →
      v.flushed.flatten = v.sent ∧ v.sy.batch = [] ∧ v.ms.writeChannel = [] := by
    intro v hv hp
    obtain ⟨_, k2, k3⟩ := hv.2.2 hp
    have := hv.1
    rw [k2, k3] at this
    simp only [List.append_nil] at this
    exact ⟨this, k2, k3⟩
  refine ⟨hq.1, hdoneEq w hq, ?_⟩
  intro hopen appendOk createOk2
  have hq1 : QueueInv { w with ms := { w.ms with running := false } } :=
    ⟨hq.1, hq.2.1, fun hp => ⟨rfl, (hq.2.2 hp).2⟩⟩
  obtain ⟨fs, w1, hfs, hw1, hp1, hdes⟩ := Destory_run env b hb w appendOk createOk2 hd hopen
  have hqw1 : QueueInv w1 := queueInv_run env fs _ w1 hq1 hw1
  have hsent : w1.sent = w.sent :=
    (run_sync_keeps_sent env fs _ w1 (by intro s hs; rw [hfs s hs]; rfl) hw1).1
  obtain ⟨e1, e2, e3⟩ := hdoneEq w1 hqw1 hp1
  exact ⟨_, hdes, hp1, by rw [← hsent]; exact e1, hsent, e2, e3⟩

/-- Example for C10: after the run `demoSteps` on a fresh store, `Destory`
returns with the three chunks sent handed to `Segment.Append` in order. -/
theorem sync_flushes_all_in_order_witness :
    ∃ w1, Destory demoEnv demoWorld true true = .ok w1 ∧
      w1.flushed.flatten = demoWorld.sent ∧
      demoWorld.sent.map (fun ch => ch.data) = [[97], [98], [99]] := by
  have h := sync_flushes_all_in_order demoEnv true true [] 2 1 demoFresh demoSteps demoWorld
    (by decide) (by decide) (by decide)
  obtain ⟨w1, hdes, _, hfl, _, _, _⟩ := h.2.2 (by decide) true true
  exact ⟨w1, hdes, hfl, by decide⟩

/-- C7.  After `Destory` on a fresh store the first `Append` closes the channel
and returns -1 with the cursor unchanged; the second `Append` panics, because it
closes the channel again. -/
theorem second_append_after_destory_panics :
    (Destory demoEnv (World.start demoFresh) true true).bind (fun w =>
        .ok (w.ms.running, w.ms.chanClosed, w.ms.chunkId)) = .ok (false, false, -1) ∧
      (Destory demoEnv (World.start demoFresh) true true).bind (fun w =>
        (Append demoEnv w.ms [97]).bind (fun r =>
          .ok (r.2, r.1.chunkId, r.1.writeChannel, r.1.chanClosed))) = .ok (-1, -1, [], true) ∧
      (Destory demoEnv (World.start demoFresh) true true).bind (fun w =>
        (Append demoEnv w.ms [97]).bind (fun r => Append demoEnv r.1 [98])) = Outcome.panic := by
  decide

/-- C5.  On a fresh store with batch size 1, two chunks (ids 0 and 1) are
queued before the flush goroutine runs; flushing chunk 0 takes segment 0 over
the size limit and `checkRoll` creates the next segment at `chunkId + 1 = 2`;
chunk 1 is then flushed into that segment, which so holds an id below its
`sid`; `Query(1)` resolves to segment 0 and finds nothing. -/
theorem roll_with_queued_chunks_breaks_range :
    ((NewMemorySnapshot demoEnv true [] true 1 4).bind (fun ms =>
        run demoEnv (World.start ms)
          [Step.append [1, 2, 3, 4], Step.append [5], Step.sync true true, Step.sync true true,
           Step.sync true true])).bind (fun w =>
        .ok (w.returned, w.ms.segments.map (fun s => (s.sid, s.chunks.map (fun ch => ch.id)))))
      = .ok ([0, 1], [(0, [0]), (2, [1])]) ∧
    ((NewMemorySnapshot demoEnv true [] true 1 4).bind (fun ms =>
        run demoEnv (World.start ms)
          [Step.append [1, 2, 3, 4], Step.append [5], Step.sync true true, Step.sync true true,
           Step.sync true true])).bind (fun w =>
        .ok (decide (∀ s ∈ w.ms.segments, holdsOwnRange s))) = .ok false ∧
    ((NewMemorySnapshot demoEnv true [] true 1 4).bind (fun ms =>
        run demoEnv (World.start ms)
          [Step.append [1, 2, 3, 4], Step.append [5], Step.sync true true, Step.sync true true,
           Step.sync true true])).bind (fun w =>
        (Query w.ms 1).bind (fun r => .ok r.2)) = .ok none := by
  decide

/-! ## Lemmas: the roll policy -/

theorem frameBytes_append (a b : List Chunk) : frameBytes (a ++ b) = frameBytes a + frameBytes b := by
  simp [frameBytes]

theorem overshoot_of_le (env : Env) (b : Int) (log : List (List Chunk)) (k : Nat) (s : Segment)
    (h : s.byteSize ≤ (env.MAX_SEGMENT_SIZE : Int)) : OvershootBound env b log k s := by
  refine ⟨[], List.nil_suffix, ?_, Nat.zero_le _, ?_⟩
  · intro batch hb
    simp at hb
  · simp only [frameBytes, List.flatten_nil, List.map_nil, List.sum_nil, add_zero]
    exact h

theorem overshoot_mono (env : Env) (b : Int) (log : List (List Chunk)) {k k1 : Nat}
    (hk : k ≤ k1) (s : Segment) (h : OvershootBound env b log k s) :
    OvershootBound env b log k1 s := by
  obtain ⟨bs, h1, h2, h3, h4⟩ := h
  exact ⟨bs, h1, h2, by omega, h4⟩

theorem overshoot_close (env : Env) (b : Int) (log : List (List Chunk)) (k : Nat) (s : Segment)
    (h : OvershootBound env b log k s) : OvershootBound env b log k s.Close := h

/-- A write of `batch` to a segment within `OvershootBound` for `k` batches
leaves it within `OvershootBound` for `k + 1` batches, the log having grown
by `batch`. -/
theorem overshoot_after_append (env : Env) (b : Int) (log : List (List Chunk)) (k : Nat)
    (s : Segment) (disk : Disk) (batch : List Chunk) (hlen : (batch.length : Int) ≤ b)
    (h : OvershootBound env b log k s) :
    OvershootBound env b (log ++ [batch]) (k + 1) (s.Append disk batch true).1 := by
  obtain ⟨bs, h1, h2, h3, h4⟩ := h
  refine ⟨bs ++ [batch], ?_, ?_, ?_, ?_⟩
  · obtain ⟨t, ht⟩ := h1
    exact ⟨t, by rw [← ht, List.append_assoc]⟩
  · intro x hx
    rcases List.mem_append.mp hx with hx | hx
    · exact h2 x hx
    · simp only [List.mem_singleton] at hx
      subst hx
      exact hlen
  · simp only [List.length_append, List.length_singleton]
    omega
  · simp only [Segment.Append, if_true, List.flatten_append, List.flatten_cons, List.flatten_nil,
      List.append_nil, frameBytes_append]
    omega

theorem getLast?_eq_some_index {α : Type} {l : List α} {a : α} (h : l.getLast? = some a) :
    l[l.length - 1]? = some a ∧ 0 < l.length := by
  rw [List.getLast?_eq_getElem?] at h
  refine ⟨h, ?_⟩
  rw [List.getElem?_eq_some] at h
  obtain ⟨hlt, _⟩ := h
  omega

theorem loggedWrites_nil (appendOk : Bool) (lastSeg : Nat) : loggedWrites appendOk lastSeg [] = [] := by
  cases appendOk <;> rfl

theorem writesTo_append (i : Nat) (a b : List (Nat × List Chunk)) :
    writesTo i (a ++ b) = writesTo i a ++ writesTo i b := by
  simp [writesTo]

theorem writesTo_logged_ne (i j : Nat) (hij : j ≠ i) (appendOk : Bool)
    (batches : List (List Chunk)) : writesTo i (loggedWrites appendOk j batches) = [] := by
  cases appendOk with
  | false => rfl
  | true =>
    simp only [loggedWrites, if_true, writesTo, List.map_eq_nil_iff, List.filter_eq_nil_iff,
      List.mem_map, decide_eq_true_eq]
    rintro p ⟨x, _, rfl⟩
    exact hij

theorem writesTo_logged_self (i : Nat) (batch : List Chunk) :
    writesTo i (loggedWrites true i [batch]) = [batch] := by
  simp [writesTo, loggedWrites]

/-- What `checkRoll` does to the roll invariant, after `k` failed creations: when
every superseded segment and the last segment are within `OvershootBound` for
`k + 1` batches, so is every superseded segment afterwards, and the last
segment afterwards is within `OvershootBound` for `k` batches when creation
succeeds (`log` is any log then: a segment over the limit is superseded by an
empty one). -/
theorem checkRoll_rollInv (env : Env) (b : Int) (n0 k : Nat) (ms : MemorySnapshot)
    (createOk : Bool) (r : MemorySnapshot × Nat) (logs : Nat → List (List Chunk))
    (h : checkRoll env ms createOk = .ok r)
    (ha : ∀ i s, n0 ≤ i → i + 1 < ms.segments.length → ms.segments[i]? = some s →
      OvershootBound env b (logs i) (k + 1) s)
    (hlast : ∀ s, ms.segments.getLast? = some s → n0 + 1 ≤ ms.segments.length →
      OvershootBound env b (logs (ms.segments.length - 1)) (k + 1) s) :
    (∀ i s, n0 ≤ i → i + 1 < r.1.segments.length → r.1.segments[i]? = some s →
        OvershootBound env b (logs i) (k + 1) s) ∧
      r.2 + 1 = r.1.segments.length ∧
      (∀ s, r.1.segments.getLast? = some s → n0 + 1 ≤ r.1.segments.length →
        OvershootBound env b (logs r.2) (if createOk then k else k + 1) s) := by
  obtain ⟨_, hl, hs⟩ := checkRoll_spec h
  refine ⟨?_, hl, ?_⟩
  · rcases hs with ⟨he, _, _⟩ | ⟨_, old, news, he, _, _, _, ho⟩
    · rw [he]; exact ha
    · rw [he]
      intro i s hi hlt hget
      simp only [List.length_append, List.length_singleton] at hlt
      rw [List.getElem?_append_left (by omega)] at hget
      rcases ho with ⟨ho, _⟩ | ⟨t, ht, _, ho⟩
      · subst ho
        by_cases hil : i + 1 < ms.segments.length
        · exact ha i s hi hil hget
        · have hidx : i = ms.segments.length - 1 := by omega
          rw [hidx, ← List.getLast?_eq_getElem?] at hget
          rw [hidx]
          exact hlast s hget (by omega)
      · subst ho
        simp only [List.length_set] at hlt
        by_cases hil : i + 1 < ms.segments.length
        · rw [List.getElem?_set_ne (by omega)] at hget
          exact ha i s hi hil hget
        · have hidx : i = ms.segments.length - 1 := by omega
          rw [hidx, List.getElem?_set_self (by omega)] at hget
          cases hget
          rw [hidx]
          exact overshoot_close env b _ _ t (hlast t ht (by omega))
  · rcases hs with ⟨he, hne, hle⟩ | ⟨hc, old, news, he, hz, _, _, _⟩
    · rw [he]
      intro s hs2 hn
      have hr2 : r.2 = ms.segments.length - 1 := by
        rw [he] at hl
        omega
      rw [hr2]
      cases createOk with
      | true => exact overshoot_of_le env b _ _ s (hle rfl s hs2)
      | false => exact hlast s hs2 hn
    · rw [he]
      intro s hs2 _
      rw [List.getLast?_concat] at hs2
      cases hs2
      subst hc
      apply overshoot_of_le
      rw [hz]
      exact Int.ofNat_nonneg _

theorem popBatch_length_le (env : Env) (batch : List Chunk) (cap : Nat) (p : Option Chunk)
    (h : batch.length < cap) :
    (popBatch batch p).length ≤ cap ∧ popCap env batch cap p = cap := by
  cases p with
  | none => exact ⟨by simp only [popBatch]; omega, rfl⟩
  | some c =>
    refine ⟨by simp only [popBatch, List.length_append, List.length_singleton]; omega, ?_⟩
    simp only [popCap, appendCap, h, if_true]

theorem writesTo_step_nil (i j : Nat) (ws : List (Nat × List Chunk)) (appendOk : Bool) :
    writesTo i (ws ++ loggedWrites appendOk j []) = writesTo i ws := by
  rw [loggedWrites_nil, List.append_nil]

theorem writesTo_step_other (i j : Nat) (hij : j ≠ i) (ws : List (Nat × List Chunk))
    (appendOk : Bool) (batches : List (List Chunk)) :
    writesTo i (ws ++ loggedWrites appendOk j batches) = writesTo i ws := by
  rw [writesTo_append, writesTo_logged_ne i j hij, List.append_nil]

theorem writesTo_step_self (i : Nat) (ws : List (Nat × List Chunk)) (batch : List Chunk) :
    writesTo i (ws ++ loggedWrites true i [batch]) = writesTo i ws ++ [batch] := by
  rw [writesTo_append, writesTo_logged_self]

theorem writesTo_step_failed (i j : Nat) (ws : List (Nat × List Chunk))
    (batches : List (List Chunk)) :
    writesTo i (ws ++ loggedWrites false j batches) = writesTo i ws := by
  simp [loggedWrites]

theorem rollInv_mono (env : Env) (b : Int) (n0 : Nat) {k k1 : Nat} (hk : k ≤ k1) (w : World)
    (h : RollInv env b n0 k w) : RollInv env b n0 k1 w := by
  obtain ⟨hbs, ha, hloop, hinit⟩ := h
  refine ⟨hbs, ?_, ?_, hinit⟩
  · intro i s hi hlt hget
    exact overshoot_mono env b _ (by omega) s (ha i s hi hlt hget)
  · intro hp
    obtain ⟨k1, k2, k3, k4⟩ := hloop hp
    exact ⟨k1, fun s hs hn => overshoot_mono env b _ hk s (k2 s hs hn), k3, k4⟩

/-- One scheduling of the flush goroutine keeps the roll invariant, the number
of batches in the bound growing by one when the creation fails. -/
theorem rollInv_sync (env : Env) (b : Int) (n0 k : Nat) (hb : 1 ≤ b) (w : World)
    (appendOk createOk : Bool) (w1 : World) (hP : RollInv env b n0 k w)
    (h : step env w (Step.sync appendOk createOk) = .ok w1) :
    RollInv env b n0 (if createOk then k else k + 1) w1 := by
  obtain ⟨hbs, ha, hloop, hinit⟩ := hP
  have hk : k ≤ (if createOk = true then k else k + 1) := by
    split <;> omega
  have hk1 : k + 1 ≤ (if createOk = true then k else k + 1) + 1 := by omega
  obtain ⟨x, hx, hw⟩ := step_sync_eq h
  subst hw
  rcases syncStep_cases hx with ⟨hp, _, r, hr, hxe⟩ | ⟨hp, _, _, ms2, r, hms2, hr, hxe⟩ |
    ⟨hp, _, hff, r, hr, hxe⟩ | ⟨hp, _, _, _, ms2, hms2, hxe⟩ | ⟨hp, _, _, _, hxe⟩ |
    ⟨hp, hxe⟩
  · -- start of the goroutine
    obtain ⟨_, _, _, _, f5, _, _⟩ := checkRoll_frame hr
    obtain ⟨g1, g2, g3⟩ := checkRoll_rollInv env b n0 k w.ms createOk r
      (fun i => writesTo i w.writes) hr ha (by
        intro t ht hn
        obtain ⟨hget, _⟩ := getLast?_eq_some_index ht
        exact overshoot_of_le env b _ _ t (hinit hp _ t (by omega) hget))
    subst hxe
    refine ⟨by rw [← hbs]; exact f5, ?_, ?_, ?_⟩
    · intro i s hi hlt hget
      show OvershootBound env b (writesTo i (w.writes ++ loggedWrites appendOk w.sy.lastSeg [])) _ s
      rw [writesTo_step_nil]
      exact overshoot_mono env b _ hk1 s (g1 i s hi hlt hget)
    · intro _
      refine ⟨g2, ?_, ?_, ?_⟩
      · intro s hs hn
        show OvershootBound env b (writesTo r.2 (w.writes ++ loggedWrites appendOk w.sy.lastSeg [])) _ s
        rw [writesTo_step_nil]
        exact g3 s hs hn
      · show 0 < w.ms.batchSize.toNat
        omega
      · show ((w.ms.batchSize.toNat : Nat) : Int) = b
        omega
    · intro hh
      cases hh
  · -- an iteration that flushes
    obtain ⟨k1, k2, k3, k4⟩ := hloop hp
    obtain ⟨_, _, _, _, f5, _, _⟩ := checkRoll_frame hr
    obtain ⟨t, ht, hms2e⟩ := flushTo_spec hms2
    have ht2 : w.ms.segments[w.sy.lastSeg]? = some t := ht
    have hlen : w.sy.lastSeg = w.ms.segments.length - 1 := by omega
    have htlast : w.ms.segments.getLast? = some t := by
      rw [List.getLast?_eq_getElem?, ← hlen]
      exact ht2
    obtain ⟨p1, p2⟩ := popBatch_length_le env w.sy.batch w.sy.batchCap w.ms.writeChannel.head? k3
    have hseg2 : ms2.segments = w.ms.segments.set w.sy.lastSeg
        (t.Append w.ms.disk (popBatch w.sy.batch w.ms.writeChannel.head?) appendOk).1 := by
      rw [hms2e]
    have hlen2 : ms2.segments.length = w.ms.segments.length := by
      rw [hseg2, List.length_set]
    obtain ⟨g1, g2, g3⟩ := checkRoll_rollInv env b n0 k ms2 createOk r
      (fun i => writesTo i (w.writes ++ loggedWrites appendOk w.sy.lastSeg
        [popBatch w.sy.batch w.ms.writeChannel.head?])) hr
      (by
        intro i u hi hlt hget
        rw [hseg2] at hlt hget
        simp only [List.length_set] at hlt
        rw [List.getElem?_set_ne (by omega)] at hget
        show OvershootBound env b (writesTo i _) _ u
        rw [writesTo_step_other i w.sy.lastSeg (by omega)]
        exact ha i u hi hlt hget)
      (by
        intro u hu hn
        rw [hlen2] at hn
        rw [hseg2, List.getLast?_eq_getElem?, List.length_set, ← hlen,
          List.getElem?_set_self (by omega)] at hu
        cases hu
        show OvershootBound env b (writesTo (ms2.segments.length - 1) _) _ _
        rw [hlen2, ← hlen]
        cases appendOk with
        | false =>
          rw [writesTo_step_failed]
          exact overshoot_mono env b _ (Nat.le_succ k) t (k2 t htlast hn)
        | true =>
          rw [writesTo_step_self]
          exact overshoot_after_append env b _ k t w.ms.disk _ (by omega) (k2 t htlast hn))
    have hbs2 : ms2.batchSize = w.ms.batchSize := by rw [hms2e]
    subst hxe
    refine ⟨by rw [← hbs, ← hbs2]; exact f5, ?_, ?_, ?_⟩
    · intro i s hi hlt hget
      exact overshoot_mono env b _ hk1 s (g1 i s hi hlt hget)
    · intro _
      refine ⟨g2, g3, ?_, ?_⟩
      · show 0 < popCap env w.sy.batch w.sy.batchCap w.ms.writeChannel.head?
        omega
      · show ((popCap env w.sy.batch w.sy.batchCap w.ms.writeChannel.head? : Nat) : Int) = b
        omega
    · intro hh
      cases hh
  · -- an iteration that does not flush
    obtain ⟨k1, k2, k3, k4⟩ := hloop hp
    obtain ⟨_, _, _, _, f5, _, _⟩ := checkRoll_frame hr
    obtain ⟨p1, p2⟩ := popBatch_length_le env w.sy.batch w.sy.batchCap w.ms.writeChannel.head? k3
    obtain ⟨g1, g2, g3⟩ := checkRoll_rollInv env b n0 k
      { w.ms with writeChannel := w.ms.writeChannel.tail } createOk r
      (fun i => writesTo i w.writes) hr ha
      (by
        intro u hu hn
        have hu2 : w.ms.segments.getLast? = some u := hu
        have hl2 : w.sy.lastSeg = w.ms.segments.length - 1 := by omega
        show OvershootBound env b (writesTo (w.ms.segments.length - 1) w.writes) _ u
        rw [← hl2]
        exact overshoot_mono env b _ (Nat.le_succ k) u (k2 u hu2 hn))
    have hshort : (popBatch w.sy.batch w.ms.writeChannel.head?).length <
        popCap env w.sy.batch w.sy.batchCap w.ms.writeChannel.head? := by
      simp only [forceFlush, Bool.or_eq_false_iff, decide_eq_false_iff_not, not_le] at hff
      exact hff.2
    subst hxe
    refine ⟨by rw [← hbs]; exact f5, ?_, ?_, ?_⟩
    · intro i s hi hlt hget
      show OvershootBound env b (writesTo i (w.writes ++ loggedWrites appendOk w.sy.lastSeg [])) _ s
      rw [writesTo_step_nil]
      exact overshoot_mono env b _ hk1 s (g1 i s hi hlt hget)
    · intro _
      refine ⟨g2, ?_, hshort, ?_⟩
      · intro s hs hn
        show OvershootBound env b (writesTo r.2 (w.writes ++ loggedWrites appendOk w.sy.lastSeg [])) _ s
        rw [writesTo_step_nil]
        exact g3 s hs hn
      · show ((popCap env w.sy.batch w.sy.batchCap w.ms.writeChannel.head? : Nat) : Int) = b
        omega
    · intro hh
      cases hh
  · -- the drain flushes the rest
    obtain ⟨k1, _, _, _⟩ := hloop hp
    obtain ⟨t, _, hms2e⟩ := flushTo_spec hms2
    subst hxe
    subst hms2e
    refine ⟨hbs, ?_, ?_, ?_⟩
    · intro i u hi hlt hget
      simp only [List.length_set] at hlt
      rw [List.getElem?_set_ne (by omega)] at hget
      show OvershootBound env b (writesTo i (w.writes ++ loggedWrites appendOk w.sy.lastSeg _)) _ u
      rw [writesTo_step_other i w.sy.lastSeg (by omega)]
      exact overshoot_mono env b _ hk1 u (ha i u hi hlt hget)
    · intro hh
      cases hh
    · intro hh
      cases hh
  · subst hxe
    refine ⟨hbs, ?_, ?_, ?_⟩
    · intro i u hi hlt hget
      show OvershootBound env b (writesTo i (w.writes ++ loggedWrites appendOk w.sy.lastSeg [])) _ u
      rw [writesTo_step_nil]
      exact overshoot_mono env b _ hk1 u (ha i u hi hlt hget)
    · intro hh
      cases hh
    · intro hh
      cases hh
  · subst hxe
    have hrw : ∀ i, writesTo i (w.writes ++ loggedWrites appendOk w.sy.lastSeg []) =
        writesTo i w.writes := fun i => writesTo_step_nil i _ _ _
    refine ⟨hbs, ?_, ?_, hinit⟩
    · intro i u hi hlt hget
      show OvershootBound env b (writesTo i (w.writes ++ loggedWrites appendOk w.sy.lastSeg [])) _ u
      rw [hrw]
      exact overshoot_mono env b _ hk1 u (ha i u hi hlt hget)
    · intro hh
      rw [hp] at hh
      cases hh

theorem rollInv_step (env : Env) (b : Int) (n0 k : Nat) (hb : 1 ≤ b) (w : World) (s : Step)
    (w1 : World) (hP : RollInv env b n0 k w) (h : step env w s = .ok w1) :
    RollInv env b n0 (k + (if s.createFails then 1 else 0)) w1 := by
  cases s with
  | append msg =>
    obtain ⟨hbs, ha, hloop, hinit⟩ := hP
    obtain ⟨r, hr, hw⟩ := step_append_eq h
    subst hw
    rcases Append_cases hr with ⟨_, _, _, _, chunk, _, _, _, hr1⟩ | ⟨_, _, hr1⟩
    · rw [hr1]; exact ⟨hbs, ha, hloop, hinit⟩
    · subst hr1; exact ⟨hbs, ha, hloop, hinit⟩
  | stop =>
    have hw := step_stop_eq h
    subst hw
    exact hP
  | sync appendOk createOk =>
    have h1 := rollInv_sync env b n0 k hb w appendOk createOk w1 hP h
    cases createOk with
    | false => exact h1
    | true => exact h1

theorem rollInv_run (env : Env) (b : Int) (n0 : Nat) (hb : 1 ≤ b) :
    ∀ (steps : List Step) (k : Nat) (w w1 : World), RollInv env b n0 k w →
      run env w steps = .ok w1 →
      RollInv env b n0 (k + (steps.filter Step.createFails).length) w1 := by
  intro steps
  induction steps with
  | nil =>
    intro k w w1 hP hrun
    simp only [run, Outcome.ok.injEq] at hrun
    subst hrun
    exact hP
  | cons s rest ih =>
    intro k w w1 hP hrun
    simp only [run] at hrun
    obtain ⟨w2, hw2, hrest⟩ := Outcome.bind_eq_ok hrun
    have h2 := ih _ w2 w1 (rollInv_step env b n0 k hb w s w2 hP hw2) hrest
    refine rollInv_mono env b n0 ?_ w1 h2
    cases hc : s.createFails with
    | false => simp [List.filter_cons, hc]
    | true => simp [List.filter_cons, hc]; omega

/-! ## Roll policy -/

/-- C8, as the code has it.  Roll overshoot bound.  Start the flush goroutine on
a store with `batchSize >= 1` in which every segment from directory index `n0`
on is within `MAX_SEGMENT_SIZE` (on a fresh store `n0 = 0`).  In every state
reached by calls of `Append`, schedulings of the goroutine (whatever the
outcome of its segment writes and segment creations) and the stop of
`Destory`, every segment from index `n0` on that a roll has superseded has
`byteSize` at most `MAX_SEGMENT_SIZE` plus the total framed length of the last
batches written to it: at most one batch more than the number of schedulings
in which the segment creation fails, so one batch when none fails, each batch
of at most `batchSize` chunks. -/
theorem superseded_segment_overshoot (env : Env) (ms0 : MemorySnapshot) (n0 : Nat)
    (steps : List Step) (w : World)
    (hb : 1 ≤ ms0.batchSize)
    (hn0 : ∀ i s, n0 ≤ i → ms0.segments[i]? = some s →
      s.byteSize ≤ (env.MAX_SEGMENT_SIZE : Int))
    (hrun : run env (World.start ms0) steps = .ok w) :
    ∀ i s, n0 ≤ i → i + 1 < w.ms.segments.length → w.ms.segments[i]? = some s →
      ∃ bs : List (List Chunk), bs <:+ writesTo i w.writes ∧
        (∀ batch ∈ bs, (batch.length : Int) ≤ ms0.batchSize) ∧
        bs.length ≤ (steps.filter Step.createFails).length + 1 ∧
        s.byteSize ≤ (env.MAX_SEGMENT_SIZE : Int) + frameBytes bs.flatten := by
  have hstart : RollInv env ms0.batchSize n0 0 (World.start ms0) := by
    refine ⟨rfl, ?_, ?_, fun _ => hn0⟩
    · intro i s hi hlt hget
      exact overshoot_of_le env _ _ _ s (hn0 i s hi hget)
    · intro hh
      cases hh
  have hfin := rollInv_run env ms0.batchSize n0 hb steps 0 (World.start ms0) w hstart hrun
  rw [Nat.zero_add] at hfin
  exact hfin.2.1

/-- Example for C8: after `rollSteps` on a fresh store with batch size 2, in
which no creation fails, segment 0 has been superseded and is within the bound
of the one batch last written to it. -/
theorem superseded_segment_overshoot_witness :
    ∃ s, rollWorld.ms.segments[0]? = some s ∧ 1 < rollWorld.ms.segments.length ∧
      ∃ bs : List (List Chunk), bs <:+ writesTo 0 rollWorld.writes ∧
        (∀ batch ∈ bs, (batch.length : Int) ≤ 2) ∧ bs.length ≤ 1 ∧
        s.byteSize ≤ (demoEnv.MAX_SEGMENT_SIZE : Int) + frameBytes bs.flatten := by
  refine ⟨rollWorld.ms.segments.headD (descriptor demoNinth 0), by decide, by decide, ?_⟩
  exact superseded_segment_overshoot demoEnv demoFresh 0 rollSteps rollWorld (by decide)
    (by
      intro i s _ hget
      have hall : ∀ t ∈ demoFresh.segments, t.byteSize ≤ (demoEnv.MAX_SEGMENT_SIZE : Int) := by
        decide
      exact hall s (List.getElem?_mem hget))
    (by decide) 0 _ (Nat.le_refl 0) (by decide) (by decide)

/-- C8, as the claim has it, fails, with `MAX_SEGMENT_SIZE = 20` and records of
framed length 18.  After `rollSteps` on a fresh store with batch size 2 the
superseded segment 0 has 54 bytes, its last batch being two records.  After
`failedRollSteps` on a fresh store with batch size 1, where one creation
fails, the superseded segment 0 has 54 bytes as well, every batch being one
record.  Each time 54 is more than the limit plus the framed length of one
record. -/
theorem superseded_segment_exceeds_one_record :
    ((NewMemorySnapshot demoEnv true [] true 2 1).bind (fun ms =>
        run demoEnv (World.start ms) rollSteps)).bind (fun w =>
        .ok (w.ms.segments.map (fun s => (s.sid, s.byteSize)),
          w.writes.map (fun p => (p.1, p.2.map (fun ch => ch.length)))))
      = .ok ([(0, 54), (3, 0)], [(0, [18]), (0, [18, 18])]) ∧
    ((NewMemorySnapshot demoEnv true [] true 1 4).bind (fun ms =>
        run demoEnv (World.start ms) failedRollSteps)).bind (fun w =>
        .ok (w.ms.segments.map (fun s => (s.sid, s.byteSize)),
          w.writes.map (fun p => (p.1, p.2.map (fun ch => ch.length)))))
      = .ok ([(0, 54), (3, 0)], [(0, [18]), (0, [18]), (0, [18])]) ∧
    (demoEnv.MAX_SEGMENT_SIZE : Int) + 18 < 54 := by
  decide

/-! ## Lemmas: recovery -/

/-- Sorting puts the one segment with the greatest `sid` last. -/
theorem sortSegments_getLast {l : List Segment} {last : Segment} (hmem : last ∈ l)
    (hmax : ∀ s ∈ l, s ≠ last → s.sid < last.sid) :
    (sortSegments l).getLast? = some last := by
  haveI : IsTotal Segment (fun a b => a.sid ≤ b.sid) := ⟨fun a b => le_total a.sid b.sid⟩
  haveI : IsTrans Segment (fun a b => a.sid ≤ b.sid) := ⟨fun a b c h1 h2 => le_trans h1 h2⟩
  have hsorted : List.Sorted (fun a b => a.sid ≤ b.sid) (sortSegments l) :=
    List.sorted_insertionSort _ l
  have hperm : (sortSegments l).Perm l := List.perm_insertionSort _ l
  have hin : last ∈ sortSegments l := hperm.mem_iff.mpr hmem
  cases hl : (sortSegments l).getLast? with
  | none =>
    rw [List.getLast?_eq_none_iff] at hl
    rw [hl] at hin
    simp at hin
  | some x =>
    obtain ⟨ys, hys⟩ := List.getLast?_eq_some_iff.mp hl
    by_cases hx : x = last
    · rw [hx]
    · exfalso
      have hxl : x ∈ l := hperm.mem_iff.mp (by rw [hys]; simp)
      have h1 := hmax x hxl hx
      rw [hys] at hin hsorted
      have hiny : last ∈ ys := by
        rcases List.mem_append.mp hin with h | h
        · exact h
        · simp only [List.mem_singleton] at h
          exact absurd h.symm hx
      have h2 : last.sid ≤ x.sid :=
        (List.pairwise_append.mp hsorted).2.2 last hiny x (List.mem_singleton_self x)
      omega

/-- Every descriptor of the walk comes from a file of the directory whose name
gave a start id. -/
theorem walk_mem {entries : List DirEntry} {s : Segment} (h : s ∈ walk entries) :
    ∃ f ∈ entries, f.isDir = false ∧ f.sidParse ≠ SidParse.invalid ∧
      s = descriptor f (entrySid f) := by
  induction entries with
  | nil => simp [walk] at h
  | cons f rest ih =>
    simp only [walk] at h
    cases hd : f.isDir with
    | true =>
      simp only [hd, Bool.not_true, Bool.false_eq_true, if_false] at h
      obtain ⟨g, hg, hrest⟩ := ih h
      exact ⟨g, List.mem_cons_of_mem _ hg, hrest⟩
    | false =>
      simp only [hd, Bool.not_false, if_true] at h
      cases hp : f.sidParse with
      | invalid => simp [hp] at h
      | noDash =>
        simp only [hp, List.mem_cons] at h
        rcases h with h | h
        · exact ⟨f, List.mem_cons_self _ _, hd, by rw [hp]; simp, by rw [h]; simp [entrySid, hp]⟩
        · obtain ⟨g, hg, hrest⟩ := ih h
          exact ⟨g, List.mem_cons_of_mem _ hg, hrest⟩
      | parsed id =>
        simp only [hp, List.mem_cons] at h
        rcases h with h | h
        · exact ⟨f, List.mem_cons_self _ _, hd, by rw [hp]; simp, by rw [h]; simp [entrySid, hp]⟩
        · obtain ⟨g, hg, hrest⟩ := ih h
          exact ⟨g, List.mem_cons_of_mem _ hg, hrest⟩

/-- The walk reaches a file when the name of every file before it gives a
start id. -/
theorem walk_reaches (pre post : List DirEntry) (e : DirEntry)
    (hpre : ∀ f ∈ pre, f.isDir = false → f.sidParse ≠ SidParse.invalid)
    (hfile : e.isDir = false) (hparse : e.sidParse ≠ SidParse.invalid) :
    descriptor e (entrySid e) ∈ walk (pre ++ e :: post) := by
  induction pre with
  | nil =>
    simp only [List.nil_append, walk, hfile, Bool.not_false, if_true]
    cases hp : e.sidParse with
    | invalid => exact absurd hp hparse
    | noDash => simp [entrySid, hp]
    | parsed id => simp [entrySid, hp]
  | cons f rest ih =>
    have ih1 := ih (fun g hg => hpre g (List.mem_cons_of_mem _ hg))
    simp only [List.cons_append, walk]
    cases hd : f.isDir with
    | true =>
      simp only [Bool.not_true, Bool.false_eq_true, if_false]
      exact ih1
    | false =>
      simp only [Bool.not_false, if_true]
      cases hp : f.sidParse with
      | invalid => exact absurd hp (hpre f (List.mem_cons_self _ _) hd)
      | noDash => exact List.mem_cons_of_mem _ ih1
      | parsed id => exact List.mem_cons_of_mem _ ih1

/-- The disk holds the records of a file at its path when no file before it in
the directory has the same path. -/
theorem diskRead_entryFiles (pre post : List DirEntry) (e : DirEntry)
    (hpath : ∀ f ∈ pre, f.isDir = false → f.path ≠ e.path) (hfile : e.isDir = false) :
    diskRead (entryFiles (pre ++ e :: post)) e.path = some e.stored := by
  induction pre with
  | nil => simp [entryFiles, hfile, diskRead]
  | cons f rest ih =>
    have ih1 := ih (fun g hg => hpath g (List.mem_cons_of_mem _ hg))
    simp only [List.cons_append, entryFiles]
    cases hd : f.isDir with
    | true =>
      simp only [if_true]
      exact ih1
    | false =>
      simp only [Bool.false_eq_true, if_false, diskRead]
      rw [if_neg (hpath f (List.mem_cons_self _ _) hd)]
      exact ih1

/-! ## Recovery -/

/-- C6, as the code has it.  Recovery of the id cursor.  Take a base directory
that can be opened, listed in the order of the walk as `pre`, then the file
`e`, then `post`, where `e` is the segment file with the highest start id:
its name gives a start id, and every other file whose name gives a start id
has a smaller one.  When the walk reaches `e` (the name of no file in `pre`
fails to parse: `load` ends the walk at the first such name), `e` is the file
at its path and it opens, `NewMemorySnapshot` returns a store whose last
directory segment is the one of `e`, opened with the records of its file, and
whose cursor is the id of the last of these records, or -1 when the file holds
none.  The first `Append` then returns the cursor plus one in 64-bit
arithmetic: the last record's id plus one whenever that is an `int64`, and 0
when the file holds no record. -/
theorem recovery_cursor (env : Env) (pre post : List DirEntry) (e : DirEntry) (createOk : Bool)
    (b c : Int)
    (hfile : e.isDir = false)
    (hparse : e.sidParse ≠ SidParse.invalid)
    (hmax : ∀ f ∈ pre ++ post, f.isDir = false → f.sidParse ≠ SidParse.invalid →
      entrySid f < entrySid e)
    (hreach : ∀ f ∈ pre, f.isDir = false → f.sidParse ≠ SidParse.invalid)
    (hpath : ∀ f ∈ pre, f.isDir = false → f.path ≠ e.path)
    (hopen : e.openErr = false) :
    ∃ ms, NewMemorySnapshot env true (pre ++ e :: post) createOk b c = .ok ms ∧
      ms.segments.getLast? =
        some { descriptor e (entrySid e) with isOpen := true, chunks := e.stored } ∧
      ms.chunkId = (match e.stored.getLast? with
        | some r => r.id
        | none => -1) ∧
      (∀ msg, ∃ ms1, Append env ms msg = .ok (ms1, wrap64 (ms.chunkId + 1))) ∧
      (∀ r, e.stored.getLast? = some r → -9223372036854775808 ≤ r.id + 1 →
        r.id + 1 < 9223372036854775808 →
        ∀ msg, ∃ ms1, Append env ms msg = .ok (ms1, r.id + 1)) ∧
      (e.stored = [] → ∀ msg, ∃ ms1, Append env ms msg = .ok (ms1, 0)) := by
  have hmem : descriptor e (entrySid e) ∈ walk (pre ++ e :: post) :=
    walk_reaches pre post e hreach hfile hparse
  have hgreatest : ∀ s ∈ walk (pre ++ e :: post), s ≠ descriptor e (entrySid e) →
      s.sid < (descriptor e (entrySid e)).sid := by
    intro s hs hne
    obtain ⟨f, hf, hfd, hfp, hsf⟩ := walk_mem hs
    rcases List.mem_append.mp hf with hin | hin
    · rw [hsf]
      exact hmax f (List.mem_append_left _ hin) hfd hfp
    · rcases List.mem_cons.mp hin with hin | hin
      · rw [hin] at hsf
        exact absurd hsf hne
      · rw [hsf]
        exact hmax f (List.mem_append_right _ hin) hfd hfp
  have hlast : (sortSegments (walk (pre ++ e :: post))).getLast? =
      some (descriptor e (entrySid e)) := sortSegments_getLast hmem hgreatest
  have hnobig : ¬ ((descriptor e (entrySid e)).byteSize > (env.MAX_SEGMENT_SIZE : Int)) := by
    have := Int.ofNat_nonneg env.MAX_SEGMENT_SIZE
    show ¬ ((0 : Int) > (env.MAX_SEGMENT_SIZE : Int))
    omega
  have hread := diskRead_entryFiles pre post e hpath hfile
  have hOpen : (descriptor e (entrySid e)).Open (entryFiles (pre ++ e :: post)) =
      some ({ descriptor e (entrySid e) with isOpen := true, chunks := e.stored },
        entryFiles (pre ++ e :: post)) := by
    have hread2 : diskRead (entryFiles (pre ++ e :: post)) (descriptor e (entrySid e)).path =
        some e.stored := hread
    have herr : (descriptor e (entrySid e)).openErr = false := hopen
    have hcl : (descriptor e (entrySid e)).isOpen = false := rfl
    simp only [Segment.Open, herr, hcl, hread2, Bool.false_eq_true, if_false, Option.getD_some,
      Option.isSome_some, if_true]
  have hex : ∃ ms, NewMemorySnapshot env true (pre ++ e :: post) createOk b c = .ok ms ∧
      ms.segments.getLast? =
        some { descriptor e (entrySid e) with isOpen := true, chunks := e.stored } ∧
      ms.chunkId = (match e.stored.getLast? with
        | some r => r.id
        | none => -1) ∧
      ms.running = true ∧ ms.chanClosed = false ∧ ms.writeChannel = [] := by
    obtain ⟨hidx, hpos⟩ := getLast?_eq_some_index hlast
    have hnew : NewMemorySnapshot env true (pre ++ e :: post) createOk b c = .ok
        { segments := (sortSegments (walk (pre ++ e :: post))).set
            ((sortSegments (walk (pre ++ e :: post))).length - 1)
            { descriptor e (entrySid e) with isOpen := true, chunks := e.stored },
          chunkId := (match e.stored.getLast? with
            | some r => r.id
            | none => -1),
          writeChannel := [], chanClosed := false, running := true, batchSize := b,
          segcacheSize := c, segmentCache := [], disk := entryFiles (pre ++ e :: post) } := by
      simp only [NewMemorySnapshot, load, Bool.not_true, Bool.false_eq_true, if_false,
        List.nil_append, checkRoll, hlast, hnobig, Outcome.bind, recoverSnapshot, hOpen]
    refine ⟨_, hnew, ?_, rfl, rfl, rfl, rfl⟩
    rw [List.getLast?_eq_getElem?, List.length_set, List.getElem?_set_self (by omega)]
  obtain ⟨ms, k1, k2, k3, k4, k5, k6⟩ := hex
  have happ := fun msg => Append_running env ms msg k4 k5 (by rw [k6]; simp [writeChannelCap])
  refine ⟨ms, k1, k2, k3, fun msg => ⟨_, happ msg⟩, ?_, ?_⟩
  · intro r hr hlo hhi msg
    have hval : wrap64 (ms.chunkId + 1) = r.id + 1 := by
      rw [k3, hr]
      exact wrap64_of_range hlo hhi
    exact ⟨_, by rw [← hval]; exact happ msg⟩
  · intro hnil msg
    have hval : wrap64 (ms.chunkId + 1) = 0 := by
      rw [k3, hnil]
      rfl
    exact ⟨_, by rw [← hval]; exact happ msg⟩

/-- Example for C6: a fresh store takes three calls of `Append`, flushes records
0, 1 and 2 and is destroyed, which leaves the directory `roundTripDir`, one
segment file; the store constructed over it has its cursor at 2 and its first
`Append` returns 3. -/
theorem recovery_cursor_witness :
    roundTripDir = [] ++ roundTripEntry :: [] ∧
      ∃ ms, NewMemorySnapshot roomyEnv true roundTripDir true 2 1 = .ok ms ∧
        ms.chunkId = 2 ∧ ∀ msg, ∃ ms1, Append roomyEnv ms msg = .ok (ms1, 3) := by
  have hdir : roundTripDir = [] ++ roundTripEntry :: [] := by decide
  refine ⟨hdir, ?_⟩
  obtain ⟨ms, k1, _, k3, _, k5, _⟩ := recovery_cursor roomyEnv [] [] roundTripEntry true 2 1
    (by decide) (by decide) (by simp) (by simp) (by simp) (by decide)
  rw [← hdir] at k1
  exact ⟨ms, k1, k3, k5 (demoChunk 2 99) (by decide) (by decide) (by decide)⟩

/-- C6, as the claim has it, fails.  In `brokenDir` the segment file with the
highest start id is the one starting at 9; it opens and its last record has id
9.  The walk of `load` ends at the file before it, whose name does not parse,
so the store is recovered from the segment starting at 1: the cursor is 1 and
the first `Append` returns 2, not 10. -/
theorem recovery_stops_at_unparsable_name :
    demoNinth ∈ brokenDir ∧
    (∀ f ∈ brokenDir, f.isDir = false → f.sidParse ≠ SidParse.invalid →
      entrySid f ≤ entrySid demoNinth) ∧
    demoNinth.openErr = false ∧
    diskRead (entryFiles brokenDir) demoNinth.path = some [demoChunk 9 99] ∧
    (NewMemorySnapshot demoEnv true brokenDir true 2 1).bind (fun ms =>
        (Append demoEnv ms [100]).bind (fun r =>
          .ok (ms.segments.map (fun s => s.sid), ms.chunkId, r.2))) = .ok ([1], 1, 2) := by
  decide

end KiteQ
